import Mathlib

/-!
Shallow embedding of the JSON-schema-to-pydantic compiler in
`tools_agent/utils/structured_output.py`, together with the agent-side
schema loading in `tools_agent/agent.py`, and proofs of the specified
properties of that code.

Python dictionaries holding schema keywords are embedded as a `Schema`
inductive whose fields are `Option`s (a `none` field models an absent
key).  Python type objects produced by the compiler (classes, `typing`
aliases, forward-reference strings) are embedded as the `PyType`
inductive.  Python exceptions are embedded as `Except` errors, and the
unbounded recursion of the compiler is embedded with an explicit fuel
parameter (`Err.outOfFuel` marks fuel exhaustion; the Python code has no
such exit, so every theorem about results quantifies over or exhibits
sufficient fuel).
-/

namespace StructuredOutput

/-- A JSON value, used both for `enum` literal lists in schemas and for
runtime instances checked against compiled types. -/
inductive Value where
  | null : Value
  | b : Bool → Value
  | i : Int → Value
  | s : String → Value
  | arr : List Value → Value
  | obj : List (String × Value) → Value
deriving Repr

/-- Structural form of the forward-reference strings the compiler
manipulates: a plain definition name (`_resolve_ref` returning
`def_name`, line 35, or the root-reference branch of `_schema_to_type`,
line 211), the string `"List[...]"` built at line 302, and the quoted
string `"'...'"` built at line 267 of `structured_output.py`.  The
Python value is the rendered string; `target` is the definition name the
forward reference ultimately denotes. -/
inductive Fwd where
  | name : String → Fwd
  | listWrap : Fwd → Fwd
  | quoted : Fwd → Fwd
deriving Repr, DecidableEq

/-- The definition name a forward-reference string denotes. -/
def Fwd.target : Fwd → String
  | .name s => s
  | .listWrap f => f.target
  | .quoted f => f.target

/-- Equality test between a forward-reference string and a plain type
name (the `field_type == type_name` comparison at line 266).  The
rendered forms of `listWrap` and `quoted` contain `[`/quote characters
and are never equal to a synthesized type name. -/
def Fwd.eqPlain : Fwd → String → Bool
  | .name s, n => s == n
  | _, _ => false

/-- String constraints as collected by `_get_string_constraints`
(lines 124-155): a Python dict with at most the keys
`pattern`, `min_length`, `max_length`. -/
structure StrC where
  pattern : Option String := none
  minLength : Option Nat := none
  maxLength : Option Nat := none
deriving Repr, DecidableEq

def StrC.isEmpty (c : StrC) : Bool :=
  c.pattern.isNone && c.minLength.isNone && c.maxLength.isNone

/-- Numeric constraints as collected by `_get_number_constraints`
(lines 158-177): dict keys `ge`, `le`, `gt`, `lt`, `multiple_of`.
JSON numbers are embedded as integers. -/
structure NumC where
  ge : Option Int := none
  le : Option Int := none
  gt : Option Int := none
  lt : Option Int := none
  multipleOf : Option Int := none
deriving Repr, DecidableEq

def NumC.isEmpty (c : NumC) : Bool :=
  c.ge.isNone && c.le.isNone && c.gt.isNone && c.lt.isNone && c.multipleOf.isNone

/-- Array length constraints as collected by `_get_array_constraints`
(lines 180-190): dict keys `min_length`, `max_length`. -/
structure ArrC where
  minLength : Option Nat := none
  maxLength : Option Nat := none
deriving Repr, DecidableEq

/-- The first positional argument of `PydanticField` at line 287:
`...` (required) or `None` (optional with null default). -/
inductive PyDefault where
  | ellipsis : PyDefault
  | noneDefault : PyDefault
deriving Repr, DecidableEq

/-- Per-field data passed to `PydanticField(default, **field_kwargs)`
at lines 273-287: the default, the description, and the array length
constraints merged into the kwargs at line 278. -/
structure FieldMeta where
  default : PyDefault
  description : String := ""
  arrC : ArrC := {}
deriving Repr, DecidableEq

/-- A Python type value as produced by `_schema_to_type` and its
helpers: builtin classes, `typing` aliases, constrained types from
`constr`/`conint`/`confloat`, dynamically created pydantic models,
forward-reference strings (`pyStr`), `typing.ForwardRef` objects
(`fref`), and the `None` object itself (returned when the object branch
finds a `None` placeholder under its own name in the cache, line 250). -/
inductive PyType where
  | str : PyType
  | int : PyType
  | float : PyType
  | bool : PyType
  | noneType : PyType
  | anyT : PyType
  | bareList : PyType
  | bareDict : PyType
  | noneVal : PyType
  | constrStr : StrC → PyType
  | constrInt : NumC → PyType
  | constrFloat : NumC → PyType
  | literal : List Value → PyType
  | listOf : PyType → PyType
  | unionOf : List PyType → PyType
  | model : String → List (String × PyType × FieldMeta) → PyType
  | pyStr : Fwd → PyType
  | fref : Fwd → PyType
deriving Repr

/-- `type` keyword: either a single kind string or a list of kind
strings (the `["string","null"]` shorthand). -/
inductive SchemaT where
  | st : String → SchemaT
  | tl : List String → SchemaT
deriving Repr, DecidableEq

/-- A JSON-schema node, embedding the dictionary keys the compiler
reads.  An `Option` field set to `none` models an absent key; the
`properties`/`required` lists model `schema.get(..., {})` /
`schema.get(..., [])`.  The `defs` field is the top-level `$defs`
table, read only by `create_pydantic_model_from_json_schema`. -/
inductive Schema where
  | mk
    (ref : Option String)
    (anyOf : Option (List Schema))
    (enum : Option (List Value))
    (type : Option SchemaT)
    (properties : List (String × Schema))
    (required : List String)
    (items : Option Schema)
    (pattern : Option String)
    (format : Option String)
    (minLength : Option Nat)
    (maxLength : Option Nat)
    (minimum : Option Int)
    (maximum : Option Int)
    (exclusiveMinimum : Option Int)
    (exclusiveMaximum : Option Int)
    (multipleOf : Option Int)
    (minItems : Option Nat)
    (maxItems : Option Nat)
    (description : Option String)
    (defs : List (String × Schema))
  : Schema
deriving Repr

def Schema.ref : Schema → Option String
  | .mk r _ _ _ _ _ _ _ _ _ _ _ _ _ _ _ _ _ _ _ => r

def Schema.anyOf : Schema → Option (List Schema)
  | .mk _ a _ _ _ _ _ _ _ _ _ _ _ _ _ _ _ _ _ _ => a

def Schema.enum : Schema → Option (List Value)
  | .mk _ _ e _ _ _ _ _ _ _ _ _ _ _ _ _ _ _ _ _ => e

def Schema.type : Schema → Option SchemaT
  | .mk _ _ _ t _ _ _ _ _ _ _ _ _ _ _ _ _ _ _ _ => t

def Schema.properties : Schema → List (String × Schema)
  | .mk _ _ _ _ p _ _ _ _ _ _ _ _ _ _ _ _ _ _ _ => p

def Schema.required : Schema → List String
  | .mk _ _ _ _ _ r _ _ _ _ _ _ _ _ _ _ _ _ _ _ => r

def Schema.items : Schema → Option Schema
  | .mk _ _ _ _ _ _ i _ _ _ _ _ _ _ _ _ _ _ _ _ => i

def Schema.pattern : Schema → Option String
  | .mk _ _ _ _ _ _ _ p _ _ _ _ _ _ _ _ _ _ _ _ => p

def Schema.format : Schema → Option String
  | .mk _ _ _ _ _ _ _ _ f _ _ _ _ _ _ _ _ _ _ _ => f

def Schema.minLength : Schema → Option Nat
  | .mk _ _ _ _ _ _ _ _ _ m _ _ _ _ _ _ _ _ _ _ => m

def Schema.maxLength : Schema → Option Nat
  | .mk _ _ _ _ _ _ _ _ _ _ m _ _ _ _ _ _ _ _ _ => m

def Schema.minimum : Schema → Option Int
  | .mk _ _ _ _ _ _ _ _ _ _ _ m _ _ _ _ _ _ _ _ => m

def Schema.maximum : Schema → Option Int
  | .mk _ _ _ _ _ _ _ _ _ _ _ _ m _ _ _ _ _ _ _ => m

def Schema.exclusiveMinimum : Schema → Option Int
  | .mk _ _ _ _ _ _ _ _ _ _ _ _ _ m _ _ _ _ _ _ => m

def Schema.exclusiveMaximum : Schema → Option Int
  | .mk _ _ _ _ _ _ _ _ _ _ _ _ _ _ m _ _ _ _ _ => m

def Schema.multipleOf : Schema → Option Int
  | .mk _ _ _ _ _ _ _ _ _ _ _ _ _ _ _ m _ _ _ _ => m

def Schema.minItems : Schema → Option Nat
  | .mk _ _ _ _ _ _ _ _ _ _ _ _ _ _ _ _ m _ _ _ => m

def Schema.maxItems : Schema → Option Nat
  | .mk _ _ _ _ _ _ _ _ _ _ _ _ _ _ _ _ _ m _ _ => m

def Schema.description : Schema → Option String
  | .mk _ _ _ _ _ _ _ _ _ _ _ _ _ _ _ _ _ _ d _ => d

def Schema.defs : Schema → List (String × Schema)
  | .mk _ _ _ _ _ _ _ _ _ _ _ _ _ _ _ _ _ _ _ d => d

/-- A schema node with every keyword absent (the empty dict `{}`). -/
def Schema.empty : Schema :=
  .mk none none none none [] [] none none none none none none none none none none none none none []

/-- Replace the `$defs` table of a schema document, leaving every other
keyword unchanged. -/
def Schema.setDefs : Schema → List (String × Schema) → Schema
  | .mk r a e t p rq it pa f mnl mxl mi ma emi ema mo mni mxi de _, d =>
    .mk r a e t p rq it pa f mnl mxl mi ma emi ema mo mni mxi de d

/-- Exceptions raised by the compiler (Python `ValueError`,
`IndexError`, `TypeError`), plus the fuel-exhaustion marker of the
embedding (the Python code has no such exit). -/
inductive Err where
  | rootRecursion : Err
  | unsupportedRef : String → Err
  | defNotFound : String → Err
  | indexError : Err
  | emptyUnion : Err
  | outOfFuel : Err
deriving Repr, DecidableEq

/-- The compilation cache `model_cache : Dict[str, Type]`.  An entry
whose value is `none` is the `None` placeholder inserted at line 253
before an object's properties are compiled. -/
def Cache := List (String × Option PyType)

/-- The `$defs` table. -/
def Defs := List (String × Schema)

/-- Python dict lookup (first matching key of the association list). -/
def lookupA {α : Type} : List (String × α) → String → Option α
  | [], _ => none
  | (k, v) :: rest, key => if k == key then some v else lookupA rest key

/-- Python dict assignment: replace in place when the key exists,
append otherwise. -/
def storeA {α : Type} : List (String × α) → String → α → List (String × α)
  | [], key, v => [(key, v)]
  | (k, v0) :: rest, key, v =>
    if k == key then (key, v) :: rest else (k, v0) :: storeA rest key v

def cacheGet (c : Cache) (k : String) : Option (Option PyType) := lookupA c k

def cacheSet (c : Cache) (k : String) (v : Option PyType) : Cache := storeA c k v

def defsGet (d : Defs) (k : String) : Option Schema := lookupA d k

/-- The pattern substituted for `format: email` (line 137). -/
def emailPattern : String := "^[a-zA-Z0-9_.+-]+@[a-zA-Z0-9-]+\\.[a-zA-Z0-9-.]+$"

/-- The pattern substituted for `format: uuid` (line 139). -/
def uuidPattern : String :=
  "^[0-9a-f]\x7b8\x7d-[0-9a-f]\x7b4\x7d-[0-9a-f]\x7b4\x7d-[0-9a-f]\x7b4\x7d-[0-9a-f]\x7b12\x7d$"

/-- The pattern substituted for `format: date` (line 141). -/
def datePattern : String := "^\\d\x7b4\x7d-\\d\x7b2\x7d-\\d\x7b2\x7d$"

/-- The pattern substituted for `format: date-time` (line 143). -/
def dateTimePattern : String :=
  "^\\d\x7b4\x7d-\\d\x7b2\x7d-\\d\x7b2\x7dT\\d\x7b2\x7d:\\d\x7b2\x7d:\\d\x7b2\x7d"

/-- The pattern substituted for `format: time` (line 145). -/
def timePattern : String := "^\\d\x7b2\x7d:\\d\x7b2\x7d:\\d\x7b2\x7d$"

/-- The pattern substituted for `format: ipv4` (line 147). -/
def ipv4Pattern : String := "^(?:[0-9]\x7b1,3\x7d\\.)\x7b3\x7d[0-9]\x7b1,3\x7d$"

/-- The pattern a recognized `format` value is rewritten to
(lines 134-147); `none` for unrecognized formats. -/
def formatPattern : String → Option String
  | "email" => some emailPattern
  | "uuid" => some uuidPattern
  | "date" => some datePattern
  | "date-time" => some dateTimePattern
  | "time" => some timePattern
  | "ipv4" => some ipv4Pattern
  | _ => none

/-- `_get_string_constraints` (lines 124-155).  The dict updates are
applied in source order, so a recognized `format` overwrites the
`pattern` key written from the `pattern` keyword. -/
def getStringConstraints (s : Schema) : StrC :=
  let c : StrC := {}
  let c := match s.pattern with
    | some p => { c with pattern := some p }
    | none => c
  let c := match s.format with
    | some f =>
      match formatPattern f with
      | some p => { c with pattern := some p }
      | none => c
    | none => c
  let c := match s.minLength with
    | some n => { c with minLength := some n }
    | none => c
  match s.maxLength with
  | some n => { c with maxLength := some n }
  | none => c

/-- `_get_number_constraints` (lines 158-177). -/
def getNumberConstraints (s : Schema) : NumC :=
  let c : NumC := {}
  let c := match s.minimum with
    | some n => { c with ge := some n }
    | none => c
  let c := match s.maximum with
    | some n => { c with le := some n }
    | none => c
  let c := match s.exclusiveMinimum with
    | some n => { c with gt := some n }
    | none => c
  let c := match s.exclusiveMaximum with
    | some n => { c with lt := some n }
    | none => c
  match s.multipleOf with
  | some n => { c with multipleOf := some n }
  | none => c

/-- `_get_array_constraints` (lines 180-190). -/
def getArrayConstraints (s : Schema) : ArrC :=
  let c : ArrC := {}
  let c := match s.minItems with
    | some n => { c with minLength := some n }
    | none => c
  match s.maxItems with
  | some n => { c with maxLength := some n }
  | none => c

mutual

/-- Structural equality of JSON values (Python `==`). -/
def beqV : Value → Value → Bool
  | .null, .null => true
  | .b x, .b y => x == y
  | .i x, .i y => x == y
  | .s x, .s y => x == y
  | .arr xs, .arr ys => beqVL xs ys
  | .obj xs, .obj ys => beqVKV xs ys
  | _, _ => false
termination_by structural v => v

def beqVL : List Value → List Value → Bool
  | [], [] => true
  | x :: xs, y :: ys => beqV x y && beqVL xs ys
  | _, _ => false
termination_by structural l => l

def beqVKV : List (String × Value) → List (String × Value) → Bool
  | [], [] => true
  | (k, x) :: xs, (k2, y) :: ys => k == k2 && beqV x y && beqVKV xs ys
  | _, _ => false
termination_by structural l => l

end

mutual

/-- Structural equality of compiled Python types: the equality `typing`
uses when deduplicating `Union` arguments. -/
def beqPT : PyType → PyType → Bool
  | .str, .str => true
  | .int, .int => true
  | .float, .float => true
  | .bool, .bool => true
  | .noneType, .noneType => true
  | .anyT, .anyT => true
  | .bareList, .bareList => true
  | .bareDict, .bareDict => true
  | .noneVal, .noneVal => true
  | .constrStr c, .constrStr c2 => c == c2
  | .constrInt c, .constrInt c2 => c == c2
  | .constrFloat c, .constrFloat c2 => c == c2
  | .literal vs, .literal vs2 => beqVL vs vs2
  | .listOf t, .listOf t2 => beqPT t t2
  | .unionOf ts, .unionOf ts2 => beqPTL ts ts2
  | .model n fs, .model n2 fs2 => n == n2 && beqFields fs fs2
  | .pyStr f, .pyStr f2 => f == f2
  | .fref f, .fref f2 => f == f2
  | _, _ => false
termination_by structural t => t

def beqPTL : List PyType → List PyType → Bool
  | [], [] => true
  | t :: ts, t2 :: ts2 => beqPT t t2 && beqPTL ts ts2
  | _, _ => false
termination_by structural l => l

def beqFields :
    List (String × PyType × FieldMeta) → List (String × PyType × FieldMeta) → Bool
  | [], [] => true
  | (n, t, m) :: fs, (n2, t2, m2) :: fs2 =>
    n == n2 && beqPT t t2 && m == m2 && beqFields fs fs2
  | _, _ => false
termination_by structural l => l

end

/-- `typing`'s coercion of a plain string subscript argument to a
`ForwardRef` (applied by `Union[...]`/`Optional[...]` subscription, and
explicitly at line 101 of `_handle_anyof`). -/
def toUnionArg : PyType → PyType
  | .pyStr f => .fref f
  | t => t

/-- `typing`'s flattening of nested `Union` arguments. -/
def flattenUnions : List PyType → List PyType
  | [] => []
  | .unionOf ms :: ts => ms ++ flattenUnions ts
  | t :: ts => t :: flattenUnions ts

def dedupPTGo : List PyType → List PyType → List PyType
  | _, [] => []
  | seen, t :: ts =>
    if seen.any (beqPT t) then dedupPTGo seen ts
    else t :: dedupPTGo (seen ++ [t]) ts

/-- `typing`'s deduplication of `Union` arguments (first occurrence
kept, declaration order preserved). -/
def dedupPT (ts : List PyType) : List PyType := dedupPTGo [] ts

/-- The `Union[tuple(types)]` subscription: coerce strings to forward
references, flatten nested unions, deduplicate, collapse a singleton to
its only member, and fail on an empty tuple (Python `TypeError`). -/
def unionSubscript (ts : List PyType) : Except Err PyType :=
  match dedupPT (flattenUnions (ts.map toUnionArg)) with
  | [] => .error .emptyUnion
  | [t] => .ok t
  | ts => .ok (.unionOf ts)

/-- `Optional[t]`, i.e. `Union[t, None]`.  The union is never empty, so
the error branch of the subscription is unreachable; it is mapped to
`noneVal` for totality. -/
def pyOptional (t : PyType) : PyType :=
  match unionSubscript [t, .noneType] with
  | .ok u => u
  | .error _ => .noneVal

/-- Mapping of one entry of a `type: [...]` list (lines 228-243):
recognized kinds map to their Python type, unrecognized kinds are
silently skipped (`filterMap`). -/
def typeListKind : String → Option PyType
  | "null" => some .noneType
  | "string" => some .str
  | "integer" => some .int
  | "number" => some .float
  | "boolean" => some .bool
  | "array" => some .bareList
  | "object" => some .bareDict
  | _ => none

/-- Whether the character list `ps` is an initial segment of `cs`. -/
def leadChars : List Char → List Char → Bool
  | [], _ => true
  | _ :: _, [] => false
  | p :: ps, c :: cs => p == c && leadChars ps cs

/-- Python `s.startswith(pre)`. -/
def strStartsWith (s pre : String) : Bool := leadChars pre.data s.data

def splitOnCharAux (sep : Char) : List Char → List Char → List String
  | [], acc => [String.mk acc.reverse]
  | c :: rest, acc =>
    if c = sep then String.mk acc.reverse :: splitOnCharAux sep rest []
    else splitOnCharAux sep rest (c :: acc)

/-- Python `s.split(sep)` for a one-character separator. -/
def splitOnChar (s : String) (sep : Char) : List String :=
  splitOnCharAux sep s.data []

/-- The name a `#/$defs/...` pointer denotes: `ref.split("/")[-1]`
(line 27). -/
def refDefName (ref : String) : String := (splitOnChar ref '/').getLastD ""

/-- Lines 266-267: a field type equal (as a Python string) to the name
of the record under construction is rewritten to the quoted string
`"'<type_name>'"`; everything else is kept as-is. -/
def quoteSelfRef (t0 : PyType) (typeName : String) : PyType :=
  match t0 with
  | .pyStr f => if f.eqPlain typeName then .pyStr (.quoted (.name typeName)) else t0
  | _ => t0

/-- Lines 259-287: build one `(field_type, PydanticField(...))` entry of
the `fields` dict from the compiled property type `t0`: quote a
self-referential forward string, read the description, attach array
length kwargs when the property subschema is an array node, and then
either keep the type as-is with default `...` (required) or wrap it in
`Optional` with default `None`. -/
def buildField (typeName : String) (req : List String) (fieldName : String)
    (fieldInfo : Schema) (t0 : PyType) : String × PyType × FieldMeta :=
  let t1 := quoteSelfRef t0 typeName
  let desc := fieldInfo.description.getD ""
  let arrC := if fieldInfo.type == some (.st "array") then getArrayConstraints fieldInfo
    else {}
  if req.contains fieldName then (fieldName, t1, ⟨.ellipsis, desc, arrC⟩)
  else (fieldName, pyOptional t1, ⟨.noneDefault, desc, arrC⟩)

/-- One pending call of the compiler's mutual recursion:
`node` is `_schema_to_type(schema, type_name, ...)`, `ref` is
`_resolve_ref(ref, ...)`, `anyof` is the alternative loop of
`_handle_anyof` (with the index `i` and the `types` accumulated so
far), and `props` is the property loop of the object branch (with the
`fields` accumulated so far). -/
inductive Call where
  | node (s : Schema) (typeName : String) : Call
  | ref (r : String) : Call
  | anyof (alts : List Schema) (baseName : String) (i : Nat) (types : List PyType) : Call
  | props (ps : List (String × Schema)) (typeName : String) (req : List String)
      (fields : List (String × PyType × FieldMeta)) : Call

/-- The recursive core of `structured_output.py`: `_schema_to_type`
(lines 193-334), `_resolve_ref` (lines 10-44) and `_handle_anyof`
(lines 47-106), embedded as one function structurally recursive on an
explicit fuel parameter.  The read-only `$defs` table is a fixed
parameter; the mutable `model_cache` is threaded through. -/
def run (defs : Defs) : Nat → Call → Cache → Except Err (PyType × Cache)
  | 0, _, _ => .error .outOfFuel
  | fuel + 1, call, cache =>
    match call with
    | .node s typeName =>
      -- `_schema_to_type`: the keyword checks happen in source order.
      match s.ref with
      | some ref =>
        -- lines 207-212
        if ref == "#" then .ok (.pyStr (.name typeName), cache)
        else run defs fuel (.ref ref) cache
      | none =>
      match s.anyOf with
      | some alts => run defs fuel (.anyof alts typeName 0 []) cache  -- line 216
      | none =>
      match s.enum with
      | some vs => .ok (.literal vs, cache)  -- line 220, `_create_enum_type`
      | none =>
      match s.type with
      | some (.tl kinds) =>
        -- lines 226-244: type given as a list of kind strings
        let types := kinds.filterMap typeListKind
        if types.length > 1 then
          match unionSubscript types with
          | .ok t => .ok (t, cache)
          | .error e => .error e
        else
          match types with
          | t :: _ => .ok (t, cache)
          | [] => .error .indexError  -- `types[0]` on an empty list
      | some (.st "object") =>
        -- lines 247-293
        match cacheGet cache typeName with
        | some entry =>
          -- line 250: return the cache entry (a `None` placeholder is
          -- returned as the Python `None` object itself)
          .ok ((match entry with | some t => t | none => .noneVal), cache)
        | none =>
          let cache1 := cacheSet cache typeName none  -- line 253: placeholder
          run defs fuel (.props s.properties typeName s.required []) cache1
      | some (.st "array") =>
        -- lines 296-306
        let itemsSchema := s.items.getD Schema.empty
        match run defs fuel (.node itemsSchema (typeName ++ "Item")) cache with
        | .error e => .error e
        | .ok (itemType, cache1) =>
          match itemType with
          | .pyStr f => .ok (.pyStr (.listWrap f), cache1)  -- line 302
          | _ => .ok (.listOf itemType, cache1)
      | some (.st "string") =>
        -- lines 309-314
        let c := getStringConstraints s
        .ok ((if c.isEmpty then .str else .constrStr c), cache)
      | some (.st "integer") =>
        -- lines 315-320
        let c := getNumberConstraints s
        .ok ((if c.isEmpty then .int else .constrInt c), cache)
      | some (.st "number") =>
        -- lines 321-326
        let c := getNumberConstraints s
        .ok ((if c.isEmpty then .float else .constrFloat c), cache)
      | some (.st "boolean") => .ok (.bool, cache)
      | some (.st "null") => .ok (.noneType, cache)
      | some (.st _) => .ok (.anyT, cache)  -- lines 332-334: warning + Any
      | none => .ok (.anyT, cache)          -- lines 332-334: warning + Any
    | .ref r =>
      -- `_resolve_ref`
      if r == "#" then .error .rootRecursion  -- line 24
      else if strStartsWith r "#/$defs/" then
        let defName := refDefName r
        match cacheGet cache defName with
        | some (some t) => .ok (t, cache)                     -- line 36
        | some none => .ok (.pyStr (.name defName), cache)    -- line 35
        | none =>
          match defsGet defs defName with
          | none => .error (.defNotFound defName)             -- line 39
          | some body => run defs fuel (.node body defName) cache  -- line 42
      else .error (.unsupportedRef r)  -- line 44
    | .anyof alts baseName i types =>
      match alts with
      | [] =>
        -- lines 92-106: end of the loop
        match types with
        | [t] => .ok (t, cache)
        | _ =>
          match unionSubscript types with
          | .ok t => .ok (t, cache)
          | .error e => .error e
      | alt :: rest =>
        if alt.type == some (.st "null") then
          run defs fuel (.anyof rest baseName (i + 1) (types ++ [.noneType])) cache
        else if alt.type == some (.st "object") then
          match run defs fuel (.node alt (baseName ++ "Option" ++ toString i)) cache with
          | .error e => .error e
          | .ok (t, cache1) =>
            run defs fuel (.anyof rest baseName (i + 1) (types ++ [t])) cache1
        else if alt.ref.isSome then
          match run defs fuel (.ref (alt.ref.getD "")) cache with
          | .error e => .error e
          | .ok (t, cache1) =>
            run defs fuel (.anyof rest baseName (i + 1) (types ++ [t])) cache1
        else
          match run defs fuel (.node alt (baseName ++ "_" ++ toString i)) cache with
          | .error e => .error e
          | .ok (t, cache1) =>
            run defs fuel (.anyof rest baseName (i + 1) (types ++ [t])) cache1
    | .props ps typeName req fields =>
      match ps with
      | [] =>
        -- lines 289-293: create the model and overwrite the placeholder
        let m : PyType := .model typeName fields
        .ok (m, cacheSet cache typeName (some m))
      | (fieldName, fieldInfo) :: rest =>
        match run defs fuel (.node fieldInfo (typeName ++ "_" ++ fieldName)) cache with
        | .error e => .error e
        | .ok (t0, cache1) =>
          run defs fuel
            (.props rest typeName req
              (fields ++ [buildField typeName req fieldName fieldInfo t0])) cache1

/-- `_schema_to_type(schema, type_name, defs, model_cache)`. -/
def schemaToType (fuel : Nat) (s : Schema) (typeName : String) (defs : Defs)
    (cache : Cache) : Except Err (PyType × Cache) :=
  run defs fuel (.node s typeName) cache

/-- `_resolve_ref(ref, defs, model_cache)`. -/
def resolveRef (fuel : Nat) (r : String) (defs : Defs) (cache : Cache) :
    Except Err (PyType × Cache) :=
  run defs fuel (.ref r) cache

/-- `_handle_anyof(anyof_schemas, base_name, defs, model_cache)`. -/
def handleAnyOf (fuel : Nat) (alts : List Schema) (baseName : String) (defs : Defs)
    (cache : Cache) : Except Err (PyType × Cache) :=
  run defs fuel (.anyof alts baseName 0 []) cache

/-- Whether a compiled result is a Python class (`isinstance(result,
type)`, line 374): builtin classes and dynamically created models are;
`typing` aliases, forward-reference strings and `None` are not. -/
def isPyClass : PyType → Bool
  | .str | .int | .float | .bool | .noneType | .bareList | .bareDict => true
  | .constrStr _ | .constrInt _ | .constrFloat _ => true
  | .model _ _ => true
  | _ => false

/-- `create_pydantic_model_from_json_schema(schema_json, model_name)`
(lines 337-378): extract `$defs`, compile from a fresh empty cache,
run the `model_rebuild` pass (which mutates the created classes in
place and is the identity on the returned value), and wrap a non-class
result in a root model. -/
def createPydanticModelFromJsonSchema (fuel : Nat) (schemaJson : Schema)
    (modelName : String) : Except Err PyType :=
  match schemaToType fuel schemaJson modelName schemaJson.defs [] with
  | .error e => .error e
  | .ok (result, _) =>
    if isPyClass result then .ok result
    else .ok (.model modelName [("__root__", result, ⟨.ellipsis, "", {}⟩)])

/-! Schema constructors for concrete documents (all other keywords
absent). -/

/-- `{"type": "string"}` optionally with `pattern`/`format`. -/
def strSchema (pattern : Option String := none) (format : Option String := none)
    (minLength : Option Nat := none) (maxLength : Option Nat := none) : Schema :=
  .mk none none none (some (.st "string")) [] [] none pattern format minLength maxLength
    none none none none none none none none []

/-- `{"type": "integer"}` with optional bounds. -/
def intSchema (minimum : Option Int := none) (maximum : Option Int := none)
    (multipleOf : Option Int := none) : Schema :=
  .mk none none none (some (.st "integer")) [] [] none none none none none
    minimum maximum none none multipleOf none none none []

/-- `{"type": "null"}`. -/
def nullSchema : Schema :=
  .mk none none none (some (.st "null")) [] [] none none none none none
    none none none none none none none none []

/-- `{"type": "array", "items": ..., "minItems": ..., "maxItems": ...}`. -/
def arrSchema (items : Schema) (minItems : Option Nat := none)
    (maxItems : Option Nat := none) : Schema :=
  .mk none none none (some (.st "array")) [] [] (some items) none none none none
    none none none none none minItems maxItems none []

/-- `{"type": "object", "properties": ..., "required": ...}`. -/
def objSchema (properties : List (String × Schema)) (required : List String)
    (defs : List (String × Schema) := []) : Schema :=
  .mk none none none (some (.st "object")) properties required none none none none none
    none none none none none none none none defs

/-- `{"$ref": ...}`. -/
def refSchema (r : String) : Schema :=
  .mk (some r) none none none [] [] none none none none none
    none none none none none none none none []

/-- `{"anyOf": [...]}`. -/
def anyOfSchema (alts : List Schema) : Schema :=
  .mk none (some alts) none none [] [] none none none none none
    none none none none none none none none []

/-- `{"enum": [...]}`. -/
def enumSchema (vs : List Value) : Schema :=
  .mk none none (some vs) none [] [] none none none none none
    none none none none none none none none []

/-- `{"type": [...]}` (type-as-list shorthand). -/
def typeListSchema (kinds : List String) : Schema :=
  .mk none none none (some (.tl kinds)) [] [] none none none none none
    none none none none none none none none []

/-- A schema whose `type` is an unrecognized kind string. -/
def unknownKindSchema (kind : String) : Schema :=
  .mk none none none (some (.st kind)) [] [] none none none none none
    none none none none none none none none []

/-! Validation semantics for compiled types. -/

def isNullV : Value → Bool
  | .null => true
  | _ => false

/-- Numeric constraint check (`conint`/`confloat` keyword semantics). -/
def numOk (c : NumC) (n : Int) : Bool :=
  (match c.ge with | some g => decide (g ≤ n) | none => true) &&
  (match c.le with | some l => decide (n ≤ l) | none => true) &&
  (match c.gt with | some g => decide (g < n) | none => true) &&
  (match c.lt with | some l => decide (n < l) | none => true) &&
  (match c.multipleOf with | some k => n % k == 0 | none => true)

/-- String constraint check (`constr` keyword semantics); `rx p s`
decides whether string `s` matches regex pattern `p` (regular
expression matching is external and kept abstract). -/
def strOk (rx : String → String → Bool) (c : StrC) (s : String) : Bool :=
  (match c.minLength with | some m => decide (m ≤ s.length) | none => true) &&
  (match c.maxLength with | some m => decide (s.length ≤ m) | none => true) &&
  (match c.pattern with | some p => rx p s | none => true)

/-- The `min_length`/`max_length` field kwargs applied to a list-valued
field (line 278; pydantic applies them to the list's length).  They
constrain nothing on non-list values. -/
def fieldArrOk (a : ArrC) : Value → Bool
  | .arr xs =>
    (match a.minLength with | some m => decide (m ≤ xs.length) | none => true) &&
    (match a.maxLength with | some m => decide (xs.length ≤ m) | none => true)
  | _ => true

mutual

/-- Modelled from the spec: instance validation against a compiled
type, the downstream "validate instance against type" consumer of §6
(pydantic's validator, external to this repository).  A union accepts a
value iff some variant does (§4.4: first structurally matching variant,
which for acceptance is any-variant); a model requires every field
whose default is `...` to be present, validates present fields against
their type and attached array-length kwargs, and ignores unknown keys;
an unresolved forward-reference string or `ForwardRef` validates
nothing. -/
def accepts (rx : String → String → Bool) : PyType → Value → Bool
  | .anyT, _ => true
  | .str, v => match v with | .s _ => true | _ => false
  | .constrStr c, v => match v with | .s s => strOk rx c s | _ => false
  | .int, v => match v with | .i _ => true | _ => false
  | .constrInt c, v => match v with | .i n => numOk c n | _ => false
  | .float, v => match v with | .i _ => true | _ => false
  | .constrFloat c, v => match v with | .i n => numOk c n | _ => false
  | .bool, v => match v with | .b _ => true | _ => false
  | .noneType, v => isNullV v
  | .noneVal, v => isNullV v
  | .bareList, v => match v with | .arr _ => true | _ => false
  | .bareDict, v => match v with | .obj _ => true | _ => false
  | .literal vs, v => vs.any (fun u => beqV u v)
  | .listOf t, v => match v with | .arr xs => acceptsElems rx t xs | _ => false
  | .unionOf ts, v => acceptsAny rx ts v
  | .model _ fs, v => match v with | .obj kvs => acceptsFields rx fs kvs | _ => false
  | .pyStr _, _ => false
  | .fref _, _ => false
termination_by t v => (sizeOf t, sizeOf v)

/-- A union accepts a value iff some variant accepts it. -/
def acceptsAny (rx : String → String → Bool) : List PyType → Value → Bool
  | [], _ => false
  | t :: ts, v => accepts rx t v || acceptsAny rx ts v
termination_by ts v => (sizeOf ts, sizeOf v)

/-- Every element of a list instance must be accepted by the element
type. -/
def acceptsElems (rx : String → String → Bool) : PyType → List Value → Bool
  | _, [] => true
  | t, x :: xs => accepts rx t x && acceptsElems rx t xs
termination_by t xs => (sizeOf t, sizeOf xs)

/-- Field-by-field validation of an object instance. -/
def acceptsFields (rx : String → String → Bool) :
    List (String × PyType × FieldMeta) → List (String × Value) → Bool
  | [], _ => true
  | (n, t, m) :: fs, kvs =>
    (match lookupA kvs n with
     | some v => accepts rx t v && fieldArrOk m.arrC v
     | none => m.default == PyDefault.noneDefault) &&
    acceptsFields rx fs kvs
termination_by fs kvs => (sizeOf fs, sizeOf kvs)

end

mutual

/-- The definition names denoted by the forward-reference strings and
`ForwardRef`s occurring anywhere inside a compiled type (the "pending
placeholders" of the spec). -/
def fwdTargets : PyType → List String
  | .pyStr f => [f.target]
  | .fref f => [f.target]
  | .listOf t => fwdTargets t
  | .unionOf ts => fwdTargetsL ts
  | .model _ fs => fwdTargetsF fs
  | _ => []
termination_by structural t => t

def fwdTargetsL : List PyType → List String
  | [] => []
  | t :: ts => fwdTargets t ++ fwdTargetsL ts
termination_by structural l => l

def fwdTargetsF : List (String × PyType × FieldMeta) → List String
  | [] => []
  | (_, t, _) :: fs => fwdTargets t ++ fwdTargetsF fs
termination_by structural l => l

end

mutual

/-- Whether a schema tree contains no `$ref` anywhere (the `$defs`
table of a document node is not part of its tree). -/
def refFreeS : Schema → Bool
  | .mk r a _ _ props _ items _ _ _ _ _ _ _ _ _ _ _ _ _ =>
    r.isNone && refFreeOL a && refFreeP props && refFreeO items
termination_by structural s => s

def refFreeOL : Option (List Schema) → Bool
  | none => true
  | some l => refFreeL l
termination_by structural o => o

def refFreeL : List Schema → Bool
  | [] => true
  | s :: rest => refFreeS s && refFreeL rest
termination_by structural l => l

def refFreeP : List (String × Schema) → Bool
  | [] => true
  | (_, s) :: rest => refFreeS s && refFreeP rest
termination_by structural l => l

def refFreeO : Option Schema → Bool
  | none => true
  | some s => refFreeS s
termination_by structural o => o

end

mutual

/-- Wellformedness of a schema tree relative to a definitions table:
every `$ref` is a `#/$defs/` pointer (no root `#` reference) naming a
present definition, every `anyOf` list is nonempty, and every
type-as-list declares at least one recognized kind.  These are the
schemas for which compilation can neither raise a reference error nor
hit the empty-tuple/index errors of the union branches. -/
def wfS (defs : Defs) : Schema → Bool
  | .mk r a _ t props _ items _ _ _ _ _ _ _ _ _ _ _ _ _ =>
    (match r with
     | some rf =>
       rf != "#" && strStartsWith rf "#/$defs/" && (defsGet defs (refDefName rf)).isSome
     | none => true) &&
    (match a with | some l => !l.isEmpty | none => true) &&
    wfOL defs a &&
    (match t with
     | some (.tl kinds) => !(kinds.filterMap typeListKind).isEmpty
     | _ => true) &&
    wfP defs props && wfO defs items
termination_by structural s => s

def wfOL (defs : Defs) : Option (List Schema) → Bool
  | none => true
  | some l => wfL defs l
termination_by structural o => o

def wfL (defs : Defs) : List Schema → Bool
  | [] => true
  | s :: rest => wfS defs s && wfL defs rest
termination_by structural l => l

def wfP (defs : Defs) : List (String × Schema) → Bool
  | [] => true
  | (_, s) :: rest => wfS defs s && wfP defs rest
termination_by structural l => l

def wfO (defs : Defs) : Option Schema → Bool
  | none => true
  | some s => wfS defs s
termination_by structural o => o

end

/-- Whether a schema node dispatches to the object branch of
`_schema_to_type`: no `$ref`, `anyOf` or `enum` key, and
`type: "object"`. -/
def isObjectNode (s : Schema) : Bool :=
  s.ref.isNone && s.anyOf.isNone && s.enum.isNone && s.type == some (.st "object")

/-- Wellformedness of a definitions table for the recursion guarantees:
every definition body is an object node (the shape for which the
placeholder/fixup recursion guard exists) that is itself wellformed. -/
def wfDefs (defs : Defs) : Bool :=
  defs.all (fun (_, body) => isObjectNode body && wfS defs body)

/-! The schema store and the agent-side caller. -/

/-- The keyed schema store (`get_store()` of LangGraph, external):
a lookup from namespace and schema name to a stored schema document.
`none` is a miss (`aget` returning a falsy result, or raising — both
are handled identically by the loader). -/
def Store := List String → String → Option Schema

/-- The error of `load_schema_model`: the `ValueError` raised at
line 430 when no namespace holds the schema. -/
inductive LoadErr where
  | schemaNotFound (name : String) : LoadErr
deriving Repr, DecidableEq

/-- `load_schema_model(schema_name, user_id)` (lines 380-430): try the
user-specific namespace `(user_id, "schemas")` when a user id is
given, then the global namespace `("schemas",)`; any exception inside a
namespace attempt (including a compilation error) is caught and falls
through to the next attempt; if nothing produced a model, raise
`ValueError` (schema not found). -/
def loadSchemaModel (fuel : Nat) (store : Store) (schemaName : String)
    (userId : Option String) : Except LoadErr PyType :=
  let globalTry : Except LoadErr PyType :=
    match store ["schemas"] schemaName with
    | some sj =>
      match createPydanticModelFromJsonSchema fuel sj schemaName with
      | .ok m => .ok m
      | .error _ => .error (.schemaNotFound schemaName)
    | none => .error (.schemaNotFound schemaName)
  match userId with
  | some uid =>
    match store [uid, "schemas"] schemaName with
    | some sj =>
      match createPydanticModelFromJsonSchema fuel sj schemaName with
      | .ok m => .ok m
      | .error _ => globalTry
    | none => globalTry
  | none => globalTry

/-- The structured-output block of `graph` in `tools_agent/agent.py`
(lines 309-329): when a schema name is configured, load it; any failure
is caught and the agent falls back to `response_format = None`
(unconstrained plain output); the agent is then created either way. -/
def agentResponseFormat (fuel : Nat) (store : Store) (outputSchemaName : Option String)
    (userId : Option String) : Option PyType :=
  match outputSchemaName with
  | none => none
  | some sn =>
    match loadSchemaModel fuel store sn userId with
    | .ok m => some m
    | .error _ => none

/-! Lemmas about the association-list dictionary operations. -/

theorem lookupA_store_self {α : Type} (l : List (String × α)) (k : String) (v : α) :
    lookupA (storeA l k v) k = some v := by
  induction l with
  | nil => simp [storeA, lookupA]
  | cons kv rest ih =>
    obtain ⟨k0, v0⟩ := kv
    by_cases h : k0 = k
    · subst h
      simp [storeA, lookupA]
    · simp only [storeA, beq_iff_eq, h, if_false]
      simp only [lookupA, beq_iff_eq, h, if_false]
      exact ih

theorem lookupA_store_ne {α : Type} (l : List (String × α)) (k k2 : String) (v : α)
    (h : k ≠ k2) : lookupA (storeA l k v) k2 = lookupA l k2 := by
  induction l with
  | nil => simp [storeA, lookupA, beq_iff_eq, h]
  | cons kv rest ih =>
    obtain ⟨k0, v0⟩ := kv
    by_cases h0 : k0 = k
    · subst h0
      simp [storeA, lookupA, beq_iff_eq, h]
    · simp only [storeA, beq_iff_eq, h0, if_false]
      by_cases h2 : k0 = k2
      · subst h2
        simp [lookupA]
      · simp only [lookupA, beq_iff_eq, h2, if_false]
        exact ih

theorem cacheGet_set_self (c : Cache) (k : String) (v : Option PyType) :
    cacheGet (cacheSet c k v) k = some v :=
  lookupA_store_self c k v

theorem cacheGet_set_ne (c : Cache) (k k2 : String) (v : Option PyType)
    (h : k ≠ k2) : cacheGet (cacheSet c k v) k2 = cacheGet c k2 :=
  lookupA_store_ne c k k2 v h

/-! Cache evolution invariants of the compiler. -/

/-- Every cache key present at entry is present at exit. -/
def KeysMono (c c2 : Cache) : Prop :=
  ∀ k, (cacheGet c k).isSome → (cacheGet c2 k).isSome

/-- Every concrete cache entry is unchanged at exit (a compiled model
is never overwritten: the object branch returns early on a cache hit,
so multiply-referenced definitions share one instance). -/
def ConcPres (c c2 : Cache) : Prop :=
  ∀ k t0, cacheGet c k = some (some t0) → cacheGet c2 k = some (some t0)

/-- Every placeholder entry at exit was already a placeholder at entry
(a call resolves every placeholder it creates before returning). -/
def PendNew (c c2 : Cache) : Prop :=
  ∀ k, cacheGet c2 k = some none → cacheGet c k = some none

theorem keysMono_refl (c : Cache) : KeysMono c c := fun _ h => h

theorem keysMono_trans {c1 c2 c3 : Cache} (h1 : KeysMono c1 c2) (h2 : KeysMono c2 c3) :
    KeysMono c1 c3 := fun k h => h2 k (h1 k h)

theorem concPres_refl (c : Cache) : ConcPres c c := fun _ _ h => h

theorem concPres_trans {c1 c2 c3 : Cache} (h1 : ConcPres c1 c2) (h2 : ConcPres c2 c3) :
    ConcPres c1 c3 := fun k t h => h2 k t (h1 k t h)

theorem pendNew_refl (c : Cache) : PendNew c c := fun _ h => h

theorem pendNew_trans {c1 c2 c3 : Cache} (h1 : PendNew c1 c2) (h2 : PendNew c2 c3) :
    PendNew c1 c3 := fun k h => h1 k (h2 k h)

/-- Whether a pending call is the property loop for record name `k`
(the only call that replaces a placeholder for `k` with a concrete
entry). -/
def callIsProps : Call → String → Prop
  | .props _ n _ _, k => n = k
  | _, _ => False

/-- Precondition under which the compiler's calls arise: a property
loop for record `n` only runs while `n` holds the placeholder inserted
by the object branch. -/
def callPre : Call → Cache → Prop
  | .props _ n _ _, c => cacheGet c n = some none
  | _, _ => True

theorem keysMono_set (c : Cache) (k : String) (v : Option PyType) :
    KeysMono c (cacheSet c k v) := by
  intro k2 h
  by_cases hk : k = k2
  · subst hk
    simp [cacheGet_set_self]
  · rwa [cacheGet_set_ne c k k2 v hk]

theorem concPres_set_nonconc (c : Cache) (k : String) (v : Option PyType)
    (h : ∀ t0, cacheGet c k ≠ some (some t0)) : ConcPres c (cacheSet c k v) := by
  intro k2 t0 h2
  have hk : k ≠ k2 := by
    intro he
    subst he
    exact h t0 h2
  rwa [cacheGet_set_ne c k k2 v hk]

/-- Cache evolution of one compiler call: keys are never removed,
concrete entries are never overwritten, no placeholder survives that
was not already present, a placeholder present at entry either survives
or (only for the property loop of its own record) is replaced by the
returned model, and a property loop always leaves the model it built as
the concrete entry of its record name. -/
theorem runPres (defs : Defs) (fuel : Nat) :
    ∀ (call : Call) (cache : Cache) (t : PyType) (c2 : Cache),
      callPre call cache →
      run defs fuel call cache = .ok (t, c2) →
      KeysMono cache c2 ∧ ConcPres cache c2 ∧ PendNew cache c2 ∧
      (∀ k, cacheGet cache k = some none →
        cacheGet c2 k = some none ∨ (callIsProps call k ∧ cacheGet c2 k = some (some t))) ∧
      (∀ ps n req flds, call = .props ps n req flds →
        (∃ flds2, t = .model n flds2) ∧ cacheGet c2 n = some (some t)) := by
  induction fuel with
  | zero =>
    intro call cache t c2 _ h
    simp [run] at h
  | succ f ih =>
    intro call cache t c2 hpre h
    cases call with
    | node s typeName =>
      simp only [run] at h
      split at h
      · -- s.ref = some ref
        split at h
        · -- ref == "#"
          cases h
          exact ⟨keysMono_refl _, concPres_refl _, pendNew_refl _,
            fun k hk => .inl hk, fun ps n req flds heq => by cases heq⟩
        · have := ih (.ref _) cache t c2 trivial h
          exact ⟨this.1, this.2.1, this.2.2.1,
            fun k hk => by
              rcases this.2.2.2.1 k hk with h1 | h1
              · exact .inl h1
              · exact absurd h1.1 (by simp [callIsProps]),
            fun ps n req flds heq => by cases heq⟩
      · -- s.ref = none
        split at h
        · -- s.anyOf = some alts
          have := ih (.anyof _ typeName 0 []) cache t c2 trivial h
          exact ⟨this.1, this.2.1, this.2.2.1,
            fun k hk => by
              rcases this.2.2.2.1 k hk with h1 | h1
              · exact .inl h1
              · exact absurd h1.1 (by simp [callIsProps]),
            fun ps n req flds heq => by cases heq⟩
        · -- s.anyOf = none
          split at h
          · -- s.enum = some vs
            cases h
            exact ⟨keysMono_refl _, concPres_refl _, pendNew_refl _,
              fun k hk => .inl hk, fun ps n req flds heq => by cases heq⟩
          · -- s.enum = none: dispatch on s.type
            split at h
            · -- s.type = some (.tl kinds)
              split at h
              · split at h
                · cases h
                  exact ⟨keysMono_refl _, concPres_refl _, pendNew_refl _,
                    fun k hk => .inl hk, fun ps n req flds heq => by cases heq⟩
                · cases h
              · split at h
                · cases h
                  exact ⟨keysMono_refl _, concPres_refl _, pendNew_refl _,
                    fun k hk => .inl hk, fun ps n req flds heq => by cases heq⟩
                · cases h
            · -- object branch
              split at h
              · -- cache hit
                cases h
                exact ⟨keysMono_refl _, concPres_refl _, pendNew_refl _,
                  fun k hk => .inl hk, fun ps n req flds heq => by cases heq⟩
              · -- cache miss: placeholder + props loop
                rename_i hmiss
                have hpre2 : callPre (.props s.properties typeName s.required [])
                    (cacheSet cache typeName none) := by
                  simp [callPre, cacheGet_set_self]
                have hp := ih _ _ t c2 hpre2 h
                have habs : ∀ k, cacheGet cache k = some none → typeName ≠ k := by
                  intro k hk he
                  subst he
                  rw [hmiss] at hk
                  cases hk
                refine ⟨?_, ?_, ?_, ?_, fun ps n req flds heq => by cases heq⟩
                · exact keysMono_trans (keysMono_set cache typeName none) hp.1
                · refine concPres_trans (concPres_set_nonconc cache typeName none ?_) hp.2.1
                  intro t0 h0
                  rw [hmiss] at h0
                  cases h0
                · intro k hk
                  have hk1 := hp.2.2.1 k hk
                  by_cases he : typeName = k
                  · subst he
                    have hflip := (hp.2.2.2.2 _ _ _ _ rfl).2
                    rw [hflip] at hk
                    cases hk
                  · rwa [cacheGet_set_ne cache typeName k none he] at hk1
                · intro k hk
                  have hne := habs k hk
                  have hk1 : cacheGet (cacheSet cache typeName none) k = some none := by
                    rwa [cacheGet_set_ne cache typeName k none hne]
                  rcases hp.2.2.2.1 k hk1 with h1 | h1
                  · exact .inl h1
                  · exact absurd h1.1 (fun he => hne (by simpa [callIsProps] using he))
            · -- array branch
              split at h
              · cases h
              · rename_i t1 c1 hrun
                have hi := ih (.node _ (typeName ++ "Item")) cache t1 c1 trivial hrun
                split at h <;> cases h <;>
                  exact ⟨hi.1, hi.2.1, hi.2.2.1,
                    fun k hk => by
                      rcases hi.2.2.2.1 k hk with h1 | h1
                      · exact .inl h1
                      · exact absurd h1.1 (by simp [callIsProps]),
                    fun ps n req flds heq => by cases heq⟩
            · -- string
              cases h
              exact ⟨keysMono_refl _, concPres_refl _, pendNew_refl _,
                fun k hk => .inl hk, fun ps n req flds heq => by cases heq⟩
            · -- integer
              cases h
              exact ⟨keysMono_refl _, concPres_refl _, pendNew_refl _,
                fun k hk => .inl hk, fun ps n req flds heq => by cases heq⟩
            · -- number
              cases h
              exact ⟨keysMono_refl _, concPres_refl _, pendNew_refl _,
                fun k hk => .inl hk, fun ps n req flds heq => by cases heq⟩
            · -- boolean
              cases h
              exact ⟨keysMono_refl _, concPres_refl _, pendNew_refl _,
                fun k hk => .inl hk, fun ps n req flds heq => by cases heq⟩
            · -- null
              cases h
              exact ⟨keysMono_refl _, concPres_refl _, pendNew_refl _,
                fun k hk => .inl hk, fun ps n req flds heq => by cases heq⟩
            · -- unknown kind
              cases h
              exact ⟨keysMono_refl _, concPres_refl _, pendNew_refl _,
                fun k hk => .inl hk, fun ps n req flds heq => by cases heq⟩
            · -- no type
              cases h
              exact ⟨keysMono_refl _, concPres_refl _, pendNew_refl _,
                fun k hk => .inl hk, fun ps n req flds heq => by cases heq⟩
    | ref r =>
      simp only [run] at h
      split at h
      · cases h
      · split at h
        · -- startsWith: match on cache entry
          split at h
          · -- concrete hit
            cases h
            exact ⟨keysMono_refl _, concPres_refl _, pendNew_refl _,
              fun k hk => .inl hk, fun ps n req flds heq => by cases heq⟩
          · -- pending hit
            cases h
            exact ⟨keysMono_refl _, concPres_refl _, pendNew_refl _,
              fun k hk => .inl hk, fun ps n req flds heq => by cases heq⟩
          · -- miss: consult defs
            split at h
            · cases h
            · have := ih (.node _ (refDefName r)) cache t c2 trivial h
              exact ⟨this.1, this.2.1, this.2.2.1,
                fun k hk => by
                  rcases this.2.2.2.1 k hk with h1 | h1
                  · exact .inl h1
                  · exact absurd h1.1 (by simp [callIsProps]),
                fun ps n req flds heq => by cases heq⟩
        · cases h
    | anyof alts baseName i types =>
      simp only [run] at h
      match alts with
      | [] =>
        simp only at h
        split at h
        · cases h
          exact ⟨keysMono_refl _, concPres_refl _, pendNew_refl _,
            fun k hk => .inl hk, fun ps n req flds heq => by cases heq⟩
        · split at h
          · cases h
            exact ⟨keysMono_refl _, concPres_refl _, pendNew_refl _,
              fun k hk => .inl hk, fun ps n req flds heq => by cases heq⟩
          · cases h
      | alt :: rest =>
        simp only at h
        split at h
        · -- null alternative
          have := ih (.anyof rest baseName (i + 1) (types ++ [.noneType])) cache t c2 trivial h
          exact ⟨this.1, this.2.1, this.2.2.1,
            fun k hk => by
              rcases this.2.2.2.1 k hk with h1 | h1
              · exact .inl h1
              · exact absurd h1.1 (by simp [callIsProps]),
            fun ps n req flds heq => by cases heq⟩
        · split at h
          · -- object alternative
            split at h
            · cases h
            · rename_i t1 c1 hrun
              have h1 := ih (.node alt (baseName ++ "Option" ++ toString i)) cache t1 c1
                trivial hrun
              have h2 := ih (.anyof rest baseName (i + 1) (types ++ [t1])) c1 t c2 trivial h
              refine ⟨keysMono_trans h1.1 h2.1, concPres_trans h1.2.1 h2.2.1, pendNew_trans h1.2.2.1 h2.2.2.1,
                ?_, fun ps n req flds heq => by cases heq⟩
              intro k hk
              rcases h1.2.2.2.1 k hk with hm | hm
              · rcases h2.2.2.2.1 k hm with hm2 | hm2
                · exact .inl hm2
                · exact absurd hm2.1 (by simp [callIsProps])
              · exact absurd hm.1 (by simp [callIsProps])
          · split at h
            · -- $ref alternative
              split at h
              · cases h
              · rename_i t1 c1 hrun
                have h1 := ih (.ref (alt.ref.getD "")) cache t1 c1 trivial hrun
                have h2 := ih (.anyof rest baseName (i + 1) (types ++ [t1])) c1 t c2 trivial h
                refine ⟨keysMono_trans h1.1 h2.1, concPres_trans h1.2.1 h2.2.1, pendNew_trans h1.2.2.1 h2.2.2.1,
                  ?_, fun ps n req flds heq => by cases heq⟩
                intro k hk
                rcases h1.2.2.2.1 k hk with hm | hm
                · rcases h2.2.2.2.1 k hm with hm2 | hm2
                  · exact .inl hm2
                  · exact absurd hm2.1 (by simp [callIsProps])
                · exact absurd hm.1 (by simp [callIsProps])
            · -- primitive alternative
              split at h
              · cases h
              · rename_i t1 c1 hrun
                have h1 := ih (.node alt (baseName ++ "_" ++ toString i)) cache t1 c1
                  trivial hrun
                have h2 := ih (.anyof rest baseName (i + 1) (types ++ [t1])) c1 t c2 trivial h
                refine ⟨keysMono_trans h1.1 h2.1, concPres_trans h1.2.1 h2.2.1, pendNew_trans h1.2.2.1 h2.2.2.1,
                  ?_, fun ps n req flds heq => by cases heq⟩
                intro k hk
                rcases h1.2.2.2.1 k hk with hm | hm
                · rcases h2.2.2.2.1 k hm with hm2 | hm2
                  · exact .inl hm2
                  · exact absurd hm2.1 (by simp [callIsProps])
                · exact absurd hm.1 (by simp [callIsProps])
    | props ps typeName req fields =>
      simp only [callPre] at hpre
      simp only [run] at h
      match ps with
      | [] =>
        simp only at h
        cases h
        have habs : ∀ t0, cacheGet cache typeName ≠ some (some t0) := by
          intro t0 h0
          rw [hpre] at h0
          cases h0
        refine ⟨keysMono_set cache typeName _, concPres_set_nonconc cache typeName _ habs,
          ?_, ?_, ?_⟩
        · intro k hk
          by_cases he : typeName = k
          · subst he
            rw [cacheGet_set_self] at hk
            cases hk
          · rwa [cacheGet_set_ne cache typeName k _ he] at hk
        · intro k hk
          by_cases he : typeName = k
          · subst he
            exact .inr ⟨rfl, cacheGet_set_self cache typeName _⟩
          · rw [cacheGet_set_ne cache typeName k _ he]
            exact .inl hk
        · intro ps2 n2 req2 flds2 heq
          cases heq
          exact ⟨⟨fields, rfl⟩, cacheGet_set_self cache typeName _⟩
      | (fieldName, fieldInfo) :: rest =>
        simp only at h
        split at h
        · cases h
        · rename_i t1 c1 hrun
          have h1 := ih (.node fieldInfo (typeName ++ "_" ++ fieldName)) cache t1 c1
            trivial hrun
          have hpend1 : cacheGet c1 typeName = some none := by
            rcases h1.2.2.2.1 typeName hpre with hm | hm
            · exact hm
            · exact absurd hm.1 (by simp [callIsProps])
          have h2 := ih (.props rest typeName req _) c1 t c2 hpend1 h
          refine ⟨keysMono_trans h1.1 h2.1, concPres_trans h1.2.1 h2.2.1, pendNew_trans h1.2.2.1 h2.2.2.1, ?_, ?_⟩
          · intro k hk
            rcases h1.2.2.2.1 k hk with hm | hm
            · rcases h2.2.2.2.1 k hm with hm2 | hm2
              · exact .inl hm2
              · exact .inr ⟨by simpa [callIsProps] using hm2.1, hm2.2⟩
            · exact absurd hm.1 (by simp [callIsProps])
          · intro ps2 n2 req2 flds2 heq
            cases heq
            exact h2.2.2.2.2 _ _ _ _ rfl

/-! Error classification lemmas. -/

theorem unionSubscript_error (ts : List PyType) (e : Err)
    (h : unionSubscript ts = .error e) : e = .emptyUnion := by
  unfold unionSubscript at h
  split at h
  · cases h
    rfl
  · cases h
  · cases h

/-- Every `DefinitionNotFound` error produced by the compiler names a
definition that is genuinely absent from the `$defs` table. -/
theorem runDefNotFound (defs : Defs) (fuel : Nat) :
    ∀ (call : Call) (cache : Cache) (nm : String),
      run defs fuel call cache = .error (.defNotFound nm) → defsGet defs nm = none := by
  induction fuel with
  | zero =>
    intro call cache nm h
    cases h
  | succ f ih =>
    intro call cache nm h
    cases call with
    | node s typeName =>
      simp only [run] at h
      split at h
      · split at h
        · cases h
        · exact ih _ _ nm h
      · split at h
        · exact ih _ _ nm h
        · split at h
          · cases h
          · split at h
            · split at h
              · split at h
                · cases h
                · rename_i heq
                  cases h
                  have := unionSubscript_error _ _ heq
                  cases this
              · split at h
                · cases h
                · cases h
            · split at h
              · cases h
              · exact ih _ _ nm h
            · split at h
              · rename_i heq
                cases h
                exact ih _ _ nm heq
              · split at h <;> cases h
            · cases h
            · cases h
            · cases h
            · cases h
            · cases h
            · cases h
            · cases h
    | ref r =>
      simp only [run] at h
      split at h
      · cases h
      · split at h
        · split at h
          · cases h
          · cases h
          · split at h
            · rename_i hd
              cases h
              exact hd
            · exact ih _ _ nm h
        · cases h
    | anyof alts baseName i types =>
      simp only [run] at h
      match alts with
      | [] =>
        simp only at h
        split at h
        · cases h
        · split at h
          · cases h
          · rename_i heq
            cases h
            have := unionSubscript_error _ _ heq
            cases this
      | alt :: rest =>
        simp only at h
        split at h
        · exact ih _ _ nm h
        · split at h
          · split at h
            · rename_i heq
              cases h
              exact ih _ _ nm heq
            · exact ih _ _ nm h
          · split at h
            · split at h
              · rename_i heq
                cases h
                exact ih _ _ nm heq
              · exact ih _ _ nm h
            · split at h
              · rename_i heq
                cases h
                exact ih _ _ nm heq
              · exact ih _ _ nm h
    | props ps typeName req fields =>
      simp only [run] at h
      match ps with
      | [] =>
        simp only at h
        cases h
      | (fieldName, fieldInfo) :: rest =>
        simp only at h
        split at h
        · rename_i heq
          cases h
          exact ih _ _ nm heq
        · exact ih _ _ nm h

/-- A `#/$defs/` pointer is never the root marker `#`. -/
theorem startsWithDefs_ne_hash (r : String) (h : strStartsWith r "#/$defs/" = true) :
    (r == "#") = false := by
  rw [beq_eq_false_iff_ne]
  intro he
  subst he
  exact absurd h (by decide)

/-! Claim C10. -/

/-- C10: for every string node carrying both a `pattern` keyword and a
recognized `format` keyword (email, uuid, date, date-time, time, ipv4),
the extracted constraint set contains exactly one pattern — the one
derived from the format — and the author-supplied `pattern` keyword is
silently discarded (the result is independent of it). -/
theorem c10_format_pattern_overrides (s : Schema) (p f fp : String)
    (hp : s.pattern = some p) (hf : s.format = some f)
    (hfp : formatPattern f = some fp) :
    (getStringConstraints s).pattern = some fp := by
  simp only [getStringConstraints, hp, hf, hfp]
  cases s.minLength <;> cases s.maxLength <;> rfl

/-- Witness for C10 at a concrete schema carrying both keywords. -/
theorem c10_format_pattern_overrides_witness :
    (getStringConstraints (strSchema (some "^x+$") (some "email"))).pattern
      = some emailPattern :=
  c10_format_pattern_overrides _ "^x+$" "email" emailPattern rfl rfl rfl

/-! Claim C5. -/

/-- C5 counterexample: a node whose `type` is a list in which every
kind is unrecognized does not return the Dynamic fallback — the code
evaluates `types[0]` on an empty list and raises `IndexError`. -/
theorem c5_counterexample :
    schemaToType 5 (typeListSchema ["frobnicate"]) "M" [] [] = .error .indexError := rfl

/-- C5 (amended): a schema node whose scalar `type` kind is
unrecognized compiles to the Dynamic fallback (`Any`, with a logged
warning, which the embedding does not model) and never raises; but in
the type-as-list shorthand, unrecognized kinds are silently dropped,
and a list in which every kind is unrecognized raises `IndexError`
instead of returning Dynamic. -/
theorem c5_unknown_scalar_kind_dynamic (fuel : Nat) (s : Schema) (k n : String)
    (defs : Defs) (cache : Cache)
    (href : s.ref = none) (hany : s.anyOf = none) (henum : s.enum = none)
    (htype : s.type = some (.st k))
    (hk : k ∉ (["object", "array", "string", "integer", "number", "boolean",
      "null"] : List String)) :
    schemaToType (fuel + 1) s n defs cache = .ok (.anyT, cache) := by
  simp only [List.mem_cons, not_or] at hk
  obtain ⟨h1, h2, h3, h4, h5, h6, h7, _⟩ := hk
  simp only [schemaToType, run, href, hany, henum, htype]

/-- Witness for C5 at a concrete unknown scalar kind. -/
theorem c5_unknown_scalar_kind_dynamic_witness :
    schemaToType 1 (unknownKindSchema "vector") "M" [] [] = .ok (.anyT, []) :=
  c5_unknown_scalar_kind_dynamic 0 (unknownKindSchema "vector") "vector" "M" [] []
    rfl rfl rfl rfl (by decide)

/-! Claim C4. -/

/-- C4 counterexample: the definition `A` is present in `$defs`, yet
`resolve("#/$defs/A")` fails with `DefinitionNotFound` (for the
transitively referenced absent `B`), refuting "when the named
definition is present, resolution succeeds ... never that error". -/
theorem c4_counterexample :
    (defsGet [("A", refSchema "#/$defs/B")] "A").isSome = true ∧
    resolveRef 10 "#/$defs/A" [("A", refSchema "#/$defs/B")] []
      = .error (.defNotFound "B") :=
  ⟨rfl, rfl⟩

/-- C4 (amended): for a non-root `#/$defs/` pointer, resolution fails
immediately with `DefinitionNotFound` naming the pointer's definition
when that name is absent from both the compilation cache and `$defs`;
when the name is present in the cache, resolution succeeds at once with
the cached type (or the pending placeholder) and the cache unchanged;
and every `DefinitionNotFound` the resolver can produce names a
definition genuinely absent from `$defs` — but a pointer whose
definition is present may still fail with `DefinitionNotFound` for a
transitively referenced absent definition. -/
theorem c4_resolve_defnotfound (fuel : Nat) (r : String) (defs : Defs) (cache : Cache)
    (hsw : strStartsWith r "#/$defs/" = true) :
    (cacheGet cache (refDefName r) = none →
      defsGet defs (refDefName r) = none →
      resolveRef (fuel + 1) r defs cache = .error (.defNotFound (refDefName r))) ∧
    (∀ e, cacheGet cache (refDefName r) = some e →
      resolveRef (fuel + 1) r defs cache =
        .ok ((match e with
          | some t => t
          | none => .pyStr (.name (refDefName r))), cache)) ∧
    (∀ nm, resolveRef (fuel + 1) r defs cache = .error (.defNotFound nm) →
      defsGet defs nm = none) := by
  have hne := startsWithDefs_ne_hash r hsw
  refine ⟨?_, ?_, ?_⟩
  · intro hmiss hdefs
    simp [resolveRef, run, hne, hsw, hmiss, hdefs]
  · intro e he
    cases e with
    | some t => simp [resolveRef, run, hne, hsw, he]
    | none => simp [resolveRef, run, hne, hsw, he]
  · intro nm h
    exact runDefNotFound defs (fuel + 1) _ cache nm h

/-- Witness for C4 at concrete inputs: an absent name fails with the
error naming it; a cached name succeeds with the cached entry. -/
theorem c4_resolve_defnotfound_witness :
    resolveRef 3 "#/$defs/Z" [] [] = .error (.defNotFound "Z") ∧
    resolveRef 3 "#/$defs/S" [] [("S", some PyType.str)] = .ok (.str, [("S", some .str)]) :=
  ⟨(c4_resolve_defnotfound 2 "#/$defs/Z" [] [] (by decide)).1 rfl rfl,
   (c4_resolve_defnotfound 2 "#/$defs/S" [] [("S", some .str)] (by decide)).2.1
     (some .str) rfl⟩

/-! Claim C2. -/

/-- C2 counterexample: the definition `S` (a string-bodied definition)
is absent from the cache, and resolving it compiles the body but does
not insert anything under `S` — the returned cache is still empty —
refuting "resolving a reference whose name is absent from the cache
compiles the definition under that name and inserts the result into the
cache" (the insertion happens only for object-bodied definitions). -/
theorem c2_counterexample :
    resolveRef 10 "#/$defs/S" [("S", strSchema)] [] = .ok (.str, []) ∧
    cacheGet ([] : Cache) "S" = none :=
  ⟨rfl, rfl⟩

/-- C2 (amended): sharing is mediated by the compilation cache — a
reference whose definition name is already cached with a concrete
compiled type resolves to exactly that cached instance, with no
recompilation and the cache unchanged, so all reference sites share the
single cached instance; a name absent from the cache is compiled from
its `$defs` body, and when that body is an object node the compiled
record is inserted into the cache under the definition's name (the
resolved result being the inserted entry); a non-object definition is
recompiled at each reference site and never inserted. -/
theorem c2_shared_cache_instances :
    (∀ (fuel : Nat) (r : String) (defs : Defs) (cache : Cache) (t : PyType),
      strStartsWith r "#/$defs/" = true →
      cacheGet cache (refDefName r) = some (some t) →
      resolveRef (fuel + 1) r defs cache = .ok (t, cache)) ∧
    (∀ (fuel : Nat) (r : String) (defs : Defs) (cache : Cache) (body : Schema)
      (t : PyType) (c2 : Cache),
      strStartsWith r "#/$defs/" = true →
      cacheGet cache (refDefName r) = none →
      defsGet defs (refDefName r) = some body →
      isObjectNode body = true →
      resolveRef (fuel + 2) r defs cache = .ok (t, c2) →
      cacheGet c2 (refDefName r) = some (some t) ∧
        ∃ flds, t = .model (refDefName r) flds) := by
  constructor
  · intro fuel r defs cache t hsw hhit
    have hne := startsWithDefs_ne_hash r hsw
    simp [resolveRef, run, hne, hsw, hhit]
  · intro fuel r defs cache body t c2 hsw hmiss hdefs hobj hrun
    have hne := startsWithDefs_ne_hash r hsw
    simp only [isObjectNode, Bool.and_eq_true, Option.isNone_iff_eq_none,
      beq_iff_eq] at hobj
    obtain ⟨⟨⟨hr, ha⟩, he⟩, ht⟩ := hobj
    simp [resolveRef, run, hne, hsw, hmiss, hdefs, hr, ha, he, ht] at hrun
    have hp := runPres defs fuel _ _ t c2
      (by simp [callPre, cacheGet_set_self]) hrun
    have hflip := hp.2.2.2.2 _ _ _ _ rfl
    exact ⟨hflip.2, hflip.1⟩

/-- Witness for C2 at concrete inputs: a cached definition resolves to
the cached instance with the cache unchanged, and resolving an
uncached object-bodied definition inserts the compiled record. -/
theorem c2_shared_cache_instances_witness :
    resolveRef 3 "#/$defs/S" [] [("S", some PyType.int)]
      = .ok (.int, [("S", some PyType.int)]) ∧
    cacheGet
      [("A", some (PyType.model "A" [("x", PyType.str, ⟨.ellipsis, "", ⟨none, none⟩⟩)]))]
      "A" = some (some (PyType.model "A" [("x", PyType.str, ⟨.ellipsis, "", ⟨none, none⟩⟩)])) ∧
    (∃ flds, PyType.model "A" [("x", PyType.str, ⟨.ellipsis, "", ⟨none, none⟩⟩)]
      = PyType.model "A" flds) := by
  refine ⟨?_, ?_⟩
  · exact c2_shared_cache_instances.1 2 "#/$defs/S" [] [("S", some PyType.int)] .int
      (by decide) rfl
  · exact c2_shared_cache_instances.2 3 "#/$defs/A"
      [("A", objSchema [("x", strSchema)] ["x"])] []
      (objSchema [("x", strSchema)] ["x"])
      (PyType.model "A" [("x", PyType.str, ⟨.ellipsis, "", ⟨none, none⟩⟩)])
      [("A", some (PyType.model "A" [("x", PyType.str, ⟨.ellipsis, "", ⟨none, none⟩⟩)]))]
      (by decide) rfl rfl (by decide) rfl

/-! Claim C8. -/

/-- C8: when the keyed store holds no schema document for the requested
name in any consulted namespace (the user-specific one when a user id
is present, and the global one), `load_schema_model` fails with the
schema-not-found error, and the agent-side caller catches that failure
and falls back to unconstrained plain output (`response_format = None`)
instead of failing the request. -/
theorem c8_missing_schema_plain_fallback (fuel : Nat) (store : Store) (sn : String)
    (userId : Option String)
    (hu : ∀ uid, userId = some uid → store [uid, "schemas"] sn = none)
    (hg : store ["schemas"] sn = none) :
    loadSchemaModel fuel store sn userId = .error (.schemaNotFound sn) ∧
    agentResponseFormat fuel store (some sn) userId = none := by
  have hload : loadSchemaModel fuel store sn userId = .error (.schemaNotFound sn) := by
    unfold loadSchemaModel
    cases userId with
    | none => simp [hg]
    | some uid => simp [hg, hu uid rfl]
  exact ⟨hload, by simp [agentResponseFormat, hload]⟩

/-- Witness for C8 with an everywhere-empty store. -/
theorem c8_missing_schema_plain_fallback_witness :
    loadSchemaModel 9 (fun _ _ => none) "report" (some "user1")
      = .error (.schemaNotFound "report") ∧
    agentResponseFormat 9 (fun _ _ => none) (some "report") (some "user1") = none :=
  c8_missing_schema_plain_fallback 9 (fun _ _ => none) "report" (some "user1")
    (fun _ _ => rfl) rfl

/-! Claim C7. -/

/-- Structure of the field list built by the property loop: the
accumulated fields are extended by exactly one `buildField` entry per
property, each computed from an actual compiler run on that property's
subschema. -/
theorem runPropsStructure (defs : Defs) :
    ∀ (fuel : Nat) (ps : List (String × Schema)) (typeName : String)
      (req : List String) (fields0 : List (String × PyType × FieldMeta))
      (cache : Cache) (t : PyType) (c2 : Cache),
      run defs (fuel + 1) (.props ps typeName req fields0) cache = .ok (t, c2) →
      ∃ flds, t = .model typeName (fields0 ++ flds) ∧
        flds.length = ps.length ∧
        ∀ i (hi : i < ps.length) (hi2 : i < flds.length),
          ∃ (t0 : PyType) (fa : Nat) (ca cb : Cache),
            run defs fa
              (.node (ps.get ⟨i, hi⟩).2 (typeName ++ "_" ++ (ps.get ⟨i, hi⟩).1)) ca
              = .ok (t0, cb) ∧
            flds.get ⟨i, hi2⟩
              = buildField typeName req (ps.get ⟨i, hi⟩).1 (ps.get ⟨i, hi⟩).2 t0 := by
  intro fuel
  induction fuel with
  | zero =>
    intro ps typeName req fields0 cache t c2 h
    cases ps with
    | nil =>
      simp only [run] at h
      cases h
      exact ⟨[], by simp, by simp, fun i hi _ => absurd hi (by simp)⟩
    | cons p rest =>
      obtain ⟨fn, fi⟩ := p
      simp only [run] at h
      cases h
  | succ f ih =>
    intro ps typeName req fields0 cache t c2 h
    cases ps with
    | nil =>
      simp only [run] at h
      cases h
      exact ⟨[], by simp, by simp, fun i hi _ => absurd hi (by simp)⟩
    | cons p rest =>
      obtain ⟨fn, fi⟩ := p
      have hstep : run defs (f + 1 + 1) (.props ((fn, fi) :: rest) typeName req fields0)
          cache =
          match run defs (f + 1) (.node fi (typeName ++ "_" ++ fn)) cache with
          | .error e => .error e
          | .ok (t0, cache1) =>
            run defs (f + 1)
              (.props rest typeName req
                (fields0 ++ [buildField typeName req fn fi t0])) cache1 := rfl
      rw [hstep] at h
      split at h
      · cases h
      · rename_i t1 c1 hrun1
        obtain ⟨flds, hT, hlen, hfield⟩ := ih rest typeName req
          (fields0 ++ [buildField typeName req fn fi t1]) c1 t c2 h
        refine ⟨buildField typeName req fn fi t1 :: flds, ?_, by simp [hlen], ?_⟩
        · rw [hT, List.append_assoc]
          rfl
        · intro i hi hi2
          cases i with
          | zero =>
            exact ⟨t1, f + 1, cache, c1, hrun1, rfl⟩
          | succ j =>
            have hj : j < rest.length := by simpa using hi
            have hj2 : j < flds.length := by simpa using hi2
            obtain ⟨t0, fa, ca, cb, hr, hf⟩ := hfield j hj hj2
            exact ⟨t0, fa, ca, cb, hr, hf⟩

/-- C7: for every object node and every property of it, the field
built by the object branch satisfies: a property in the `required` set
keeps the compiled subschema type as-is (no `Optional` wrapping beyond
the verbatim quoting of a self-referential forward string) and gets the
no-default marker `...`; a property not in `required` gets `Optional`
of the compiled type and the null default. -/
theorem c7_required_optional_fields (fuel : Nat) (s : Schema) (n : String)
    (defs : Defs) (cache : Cache) (t : PyType) (c2 : Cache)
    (hobj : isObjectNode s = true) (hmiss : cacheGet cache n = none)
    (h : schemaToType (fuel + 2) s n defs cache = .ok (t, c2)) :
    ∃ flds, t = .model n flds ∧ flds.length = s.properties.length ∧
      ∀ i (hi : i < s.properties.length) (hi2 : i < flds.length),
        ∃ (t0 : PyType) (fa : Nat) (ca cb : Cache),
          run defs fa
            (.node (s.properties.get ⟨i, hi⟩).2
              (n ++ "_" ++ (s.properties.get ⟨i, hi⟩).1)) ca = .ok (t0, cb) ∧
          (s.required.contains (s.properties.get ⟨i, hi⟩).1 = true →
            flds.get ⟨i, hi2⟩ = ((s.properties.get ⟨i, hi⟩).1, quoteSelfRef t0 n,
              ⟨.ellipsis, (s.properties.get ⟨i, hi⟩).2.description.getD "",
                if (s.properties.get ⟨i, hi⟩).2.type == some (.st "array")
                then getArrayConstraints (s.properties.get ⟨i, hi⟩).2 else {}⟩)) ∧
          (s.required.contains (s.properties.get ⟨i, hi⟩).1 = false →
            flds.get ⟨i, hi2⟩ = ((s.properties.get ⟨i, hi⟩).1,
              pyOptional (quoteSelfRef t0 n),
              ⟨.noneDefault, (s.properties.get ⟨i, hi⟩).2.description.getD "",
                if (s.properties.get ⟨i, hi⟩).2.type == some (.st "array")
                then getArrayConstraints (s.properties.get ⟨i, hi⟩).2 else {}⟩)) := by
  simp only [isObjectNode, Bool.and_eq_true, Option.isNone_iff_eq_none,
    beq_iff_eq] at hobj
  obtain ⟨⟨⟨hr, ha⟩, he⟩, ht⟩ := hobj
  simp only [schemaToType, run, hr, ha, he, ht, hmiss] at h
  obtain ⟨flds, hT, hlen, hfield⟩ := runPropsStructure defs fuel s.properties n
    s.required [] (cacheSet cache n none) t c2 h
  refine ⟨flds, by simpa using hT, hlen, ?_⟩
  intro i hi hi2
  obtain ⟨t0, fa, ca, cb, hrun, hf⟩ := hfield i hi hi2
  refine ⟨t0, fa, ca, cb, hrun, ?_, ?_⟩
  · intro hreq
    rw [hf]
    simp only [buildField, hreq]
    rfl
  · intro hreq
    rw [hf]
    simp only [buildField, hreq]
    rfl

/-- Witness for C7: a concrete object with one required and one
optional property. -/
theorem c7_required_optional_fields_witness :
    ∃ flds,
      (PyType.model "M"
        [("a", PyType.str, ⟨.ellipsis, "", ⟨none, none⟩⟩),
         ("b", PyType.unionOf [PyType.int, PyType.noneType],
           ⟨.noneDefault, "", ⟨none, none⟩⟩)]) = .model "M" flds ∧
      flds.length = (objSchema [("a", strSchema), ("b", intSchema)] ["a"]).properties.length ∧
      ∀ i (hi : i < (objSchema [("a", strSchema), ("b", intSchema)] ["a"]).properties.length)
        (hi2 : i < flds.length),
        ∃ (t0 : PyType) (fa : Nat) (ca cb : Cache),
          run [] fa
            (.node ((objSchema [("a", strSchema), ("b", intSchema)] ["a"]).properties.get
              ⟨i, hi⟩).2
              ("M" ++ "_" ++ ((objSchema [("a", strSchema), ("b", intSchema)]
                ["a"]).properties.get ⟨i, hi⟩).1)) ca = .ok (t0, cb) ∧
          ((objSchema [("a", strSchema), ("b", intSchema)] ["a"]).required.contains
            ((objSchema [("a", strSchema), ("b", intSchema)] ["a"]).properties.get
              ⟨i, hi⟩).1 = true →
            flds.get ⟨i, hi2⟩ = (((objSchema [("a", strSchema), ("b", intSchema)]
              ["a"]).properties.get ⟨i, hi⟩).1, quoteSelfRef t0 "M",
              ⟨.ellipsis, ((objSchema [("a", strSchema), ("b", intSchema)]
                ["a"]).properties.get ⟨i, hi⟩).2.description.getD "",
                if ((objSchema [("a", strSchema), ("b", intSchema)]
                  ["a"]).properties.get ⟨i, hi⟩).2.type == some (.st "array")
                then getArrayConstraints ((objSchema [("a", strSchema), ("b", intSchema)]
                  ["a"]).properties.get ⟨i, hi⟩).2 else {}⟩)) ∧
          ((objSchema [("a", strSchema), ("b", intSchema)] ["a"]).required.contains
            ((objSchema [("a", strSchema), ("b", intSchema)] ["a"]).properties.get
              ⟨i, hi⟩).1 = false →
            flds.get ⟨i, hi2⟩ = (((objSchema [("a", strSchema), ("b", intSchema)]
              ["a"]).properties.get ⟨i, hi⟩).1,
              pyOptional (quoteSelfRef t0 "M"),
              ⟨.noneDefault, ((objSchema [("a", strSchema), ("b", intSchema)]
                ["a"]).properties.get ⟨i, hi⟩).2.description.getD "",
                if ((objSchema [("a", strSchema), ("b", intSchema)]
                  ["a"]).properties.get ⟨i, hi⟩).2.type == some (.st "array")
                then getArrayConstraints ((objSchema [("a", strSchema), ("b", intSchema)]
                  ["a"]).properties.get ⟨i, hi⟩).2 else {}⟩)) :=
  c7_required_optional_fields 8 (objSchema [("a", strSchema), ("b", intSchema)] ["a"])
    "M" [] [] _ _ (by decide) rfl rfl

/-! Soundness of the structural equality tests (needed to reason about
`Union` argument deduplication). -/

mutual

theorem beqV_eq : ∀ a b, beqV a b = true → a = b
  | .null, .null, _ => rfl
  | .b x, .b y, h => by simp only [beqV, beq_iff_eq] at h; rw [h]
  | .i x, .i y, h => by simp only [beqV, beq_iff_eq] at h; rw [h]
  | .s x, .s y, h => by simp only [beqV, beq_iff_eq] at h; rw [h]
  | .arr xs, .arr ys, h => by
    simp only [beqV] at h
    rw [beqVL_eq xs ys h]
  | .obj xs, .obj ys, h => by
    simp only [beqV] at h
    rw [beqVKV_eq xs ys h]
termination_by structural a => a

theorem beqVL_eq : ∀ a b, beqVL a b = true → a = b
  | [], [], _ => rfl
  | x :: xs, y :: ys, h => by
    simp only [beqVL, Bool.and_eq_true] at h
    rw [beqV_eq x y h.1, beqVL_eq xs ys h.2]
termination_by structural a => a

theorem beqVKV_eq : ∀ a b, beqVKV a b = true → a = b
  | [], [], _ => rfl
  | (k, x) :: xs, (k2, y) :: ys, h => by
    simp only [beqVKV, Bool.and_eq_true, beq_iff_eq] at h
    rw [h.1.1, beqV_eq x y h.1.2, beqVKV_eq xs ys h.2]
termination_by structural a => a

end

set_option maxHeartbeats 1000000

mutual

theorem beqPT_eq : ∀ a b, beqPT a b = true → a = b
  | .str, .str, _ => rfl
  | .int, .int, _ => rfl
  | .float, .float, _ => rfl
  | .bool, .bool, _ => rfl
  | .noneType, .noneType, _ => rfl
  | .anyT, .anyT, _ => rfl
  | .bareList, .bareList, _ => rfl
  | .bareDict, .bareDict, _ => rfl
  | .noneVal, .noneVal, _ => rfl
  | .constrStr c, .constrStr c2, h => by
    simp only [beqPT, beq_iff_eq] at h; rw [h]
  | .constrInt c, .constrInt c2, h => by
    simp only [beqPT, beq_iff_eq] at h; rw [h]
  | .constrFloat c, .constrFloat c2, h => by
    simp only [beqPT, beq_iff_eq] at h; rw [h]
  | .literal vs, .literal vs2, h => by
    simp only [beqPT] at h
    rw [beqVL_eq vs vs2 h]
  | .listOf t, .listOf t2, h => by
    simp only [beqPT] at h
    rw [beqPT_eq t t2 h]
  | .unionOf ts, .unionOf ts2, h => by
    simp only [beqPT] at h
    rw [beqPTL_eq ts ts2 h]
  | .model n fs, .model n2 fs2, h => by
    simp only [beqPT, Bool.and_eq_true, beq_iff_eq] at h
    rw [h.1, beqFields_eq fs fs2 h.2]
  | .pyStr f, .pyStr f2, h => by
    simp only [beqPT, beq_iff_eq] at h; rw [h]
  | .fref f, .fref f2, h => by
    simp only [beqPT, beq_iff_eq] at h; rw [h]
termination_by structural a => a

theorem beqPTL_eq : ∀ a b, beqPTL a b = true → a = b
  | [], [], _ => rfl
  | t :: ts, t2 :: ts2, h => by
    simp only [beqPTL, Bool.and_eq_true] at h
    rw [beqPT_eq t t2 h.1, beqPTL_eq ts ts2 h.2]
termination_by structural a => a

theorem beqFields_eq : ∀ a b, beqFields a b = true → a = b
  | [], [], _ => rfl
  | (n, t, m) :: fs, (n2, t2, m2) :: fs2, h => by
    simp only [beqFields, Bool.and_eq_true, beq_iff_eq] at h
    obtain ⟨⟨⟨h1, h2⟩, h3⟩, h4⟩ := h
    rw [h1, beqPT_eq t t2 h2, h3, beqFields_eq fs fs2 h4]
termination_by structural a => a

end

mutual

theorem beqV_refl : ∀ a, beqV a a = true
  | .null => rfl
  | .b x => by simp [beqV]
  | .i x => by simp [beqV]
  | .s x => by simp [beqV]
  | .arr xs => by simp only [beqV]; exact beqVL_refl xs
  | .obj xs => by simp only [beqV]; exact beqVKV_refl xs
termination_by structural a => a

theorem beqVL_refl : ∀ a, beqVL a a = true
  | [] => rfl
  | x :: xs => by
    simp only [beqVL, Bool.and_eq_true]
    exact ⟨beqV_refl x, beqVL_refl xs⟩
termination_by structural a => a

theorem beqVKV_refl : ∀ a, beqVKV a a = true
  | [] => rfl
  | (k, x) :: xs => by
    simp [beqVKV, beqV_refl x, beqVKV_refl xs]
termination_by structural a => a

end

mutual

theorem beqPT_refl : ∀ a, beqPT a a = true
  | .str => rfl
  | .int => rfl
  | .float => rfl
  | .bool => rfl
  | .noneType => rfl
  | .anyT => rfl
  | .bareList => rfl
  | .bareDict => rfl
  | .noneVal => rfl
  | .constrStr c => by simp [beqPT]
  | .constrInt c => by simp [beqPT]
  | .constrFloat c => by simp [beqPT]
  | .literal vs => by simp only [beqPT]; exact beqVL_refl vs
  | .listOf t => by simp only [beqPT]; exact beqPT_refl t
  | .unionOf ts => by simp only [beqPT]; exact beqPTL_refl ts
  | .model n fs => by
    simp [beqPT, beqFields_refl fs]
  | .pyStr f => by simp [beqPT]
  | .fref f => by simp [beqPT]
termination_by structural a => a

theorem beqPTL_refl : ∀ a, beqPTL a a = true
  | [] => rfl
  | t :: ts => by
    simp only [beqPTL, Bool.and_eq_true]
    exact ⟨beqPT_refl t, beqPTL_refl ts⟩
termination_by structural a => a

theorem beqFields_refl : ∀ a, beqFields a a = true
  | [] => rfl
  | (n, t, m) :: fs => by
    simp [beqFields, beqPT_refl t, beqFields_refl fs]
termination_by structural a => a

end

/-- `beqPT` decides equality of compiled types. -/
theorem beqPT_iff (a b : PyType) : beqPT a b = true ↔ a = b :=
  ⟨beqPT_eq a b, fun h => h ▸ beqPT_refl a⟩

/-! Acceptance lemmas for union construction. -/

theorem accepts_unionOf (rx : String → String → Bool) (ts : List PyType) (v : Value) :
    accepts rx (.unionOf ts) v = acceptsAny rx ts v := by
  simp [accepts]

theorem accepts_noneType (rx : String → String → Bool) (v : Value) :
    accepts rx .noneType v = isNullV v := by
  simp [accepts]

theorem acceptsAny_eq_any (rx : String → String → Bool) (ts : List PyType) (v : Value) :
    acceptsAny rx ts v = ts.any (fun t => accepts rx t v) := by
  induction ts with
  | nil => simp [acceptsAny]
  | cons t ts ih => simp [acceptsAny, ih]

theorem accepts_toUnionArg (rx : String → String → Bool) (t : PyType) (v : Value) :
    accepts rx (toUnionArg t) v = accepts rx t v := by
  cases t <;> simp [toUnionArg, accepts]

theorem flattenUnions_any (rx : String → String → Bool) (ts : List PyType) (v : Value) :
    (flattenUnions ts).any (fun t => accepts rx t v)
      = ts.any (fun t => accepts rx t v) := by
  induction ts with
  | nil => rfl
  | cons t ts ih =>
    cases t <;>
      simp [flattenUnions, ih, accepts_unionOf, acceptsAny_eq_any, List.any_append]

theorem mem_dedupPTGo (seen ts : List PyType) (x : PyType) :
    x ∈ dedupPTGo seen ts ↔ x ∈ ts ∧ x ∉ seen := by
  induction ts generalizing seen with
  | nil => simp [dedupPTGo]
  | cons t ts ih =>
    simp only [dedupPTGo]
    by_cases hs : seen.any (beqPT t) = true
    · have ht : t ∈ seen := by
        obtain ⟨y, hy, hb⟩ := List.any_eq_true.mp hs
        have he := beqPT_eq t y hb
        subst he
        exact hy
      rw [if_pos hs, ih seen]
      constructor
      · exact fun ⟨h1, h2⟩ => ⟨.tail _ h1, h2⟩
      · rintro ⟨h1, h2⟩
        cases h1 with
        | head => exact absurd ht h2
        | tail _ h => exact ⟨h, h2⟩
    · have ht : t ∉ seen := by
        intro hmem
        exact hs (List.any_eq_true.mpr ⟨t, hmem, beqPT_refl t⟩)
      rw [if_neg hs]
      simp only [List.mem_cons, ih (seen ++ [t])]
      constructor
      · rintro (h | ⟨h1, h2⟩)
        · exact ⟨.inl h, h ▸ ht⟩
        · simp only [List.mem_append, List.mem_singleton, not_or] at h2
          exact ⟨.inr h1, h2.1⟩
      · rintro ⟨h1 | h1, h2⟩
        · exact .inl h1
        · by_cases he : x = t
          · exact .inl he
          · refine .inr ⟨h1, ?_⟩
            simp only [List.mem_append, List.mem_singleton, not_or]
            exact ⟨h2, he⟩

theorem dedupPT_any (rx : String → String → Bool) (ts : List PyType) (v : Value) :
    (dedupPT ts).any (fun t => accepts rx t v) = ts.any (fun t => accepts rx t v) := by
  rcases h : ts.any (fun t => accepts rx t v) with _ | _
  · rw [List.any_eq_false] at h ⊢
    intro x hx
    exact h x ((mem_dedupPTGo [] ts x).mp hx).1
  · rw [List.any_eq_true] at h ⊢
    obtain ⟨x, hx, hacc⟩ := h
    exact ⟨x, (mem_dedupPTGo [] ts x).mpr ⟨hx, by simp⟩, hacc⟩

/-- A successfully built `Union[tuple(types)]` accepts exactly the
values some listed alternative accepts: flattening, string-to-forward
coercion, deduplication and singleton collapse all preserve
acceptance. -/
theorem unionSubscript_accepts (ts : List PyType) (u : PyType)
    (h : unionSubscript ts = .ok u) (rx : String → String → Bool) (v : Value) :
    accepts rx u v = ts.any (fun t => accepts rx t v) := by
  have key : ∀ l : List PyType, l.any (fun t => accepts rx (toUnionArg t) v)
      = l.any (fun t => accepts rx t v) := by
    intro l
    induction l with
    | nil => rfl
    | cons x l ih => simp [accepts_toUnionArg, ih]
  unfold unionSubscript at h
  have hchain : (dedupPT (flattenUnions (ts.map toUnionArg))).any
      (fun t => accepts rx t v) = ts.any (fun t => accepts rx t v) := by
    rw [dedupPT_any, flattenUnions_any]
    rw [List.any_map]
    exact key ts
  split at h
  · cases h
  · rename_i t heq
    cases h
    rw [← hchain, heq]
    simp
  · rename_i a b heq
    cases h
    rw [accepts_unionOf, acceptsAny_eq_any, ← hchain]

/-! Claim C6. -/

/-- The four-way dispatch of one `_handle_anyof` loop iteration
(lines 63-90): a `null`-typed alternative contributes `NoneType`
without compiling; an object-typed alternative is compiled under the
synthesized name `<base>Option<i>`; a `$ref` alternative goes through
the resolver; anything else is compiled under `<base>_<i>`. -/
def ArmYields (defs : Defs) (fuel : Nat) (alt : Schema) (baseName : String) (i : Nat)
    (cache : Cache) (t : PyType) (c1 : Cache) : Prop :=
  ((alt.type == some (.st "null")) = true ∧ t = .noneType ∧ c1 = cache) ∨
  ((alt.type == some (.st "null")) = false ∧ (alt.type == some (.st "object")) = true ∧
    run defs fuel (.node alt (baseName ++ "Option" ++ toString i)) cache = .ok (t, c1)) ∨
  ((alt.type == some (.st "null")) = false ∧ (alt.type == some (.st "object")) = false ∧
    alt.ref.isSome = true ∧
    run defs fuel (.ref (alt.ref.getD "")) cache = .ok (t, c1)) ∨
  ((alt.type == some (.st "null")) = false ∧ (alt.type == some (.st "object")) = false ∧
    alt.ref.isSome = false ∧
    run defs fuel (.node alt (baseName ++ "_" ++ toString i)) cache = .ok (t, c1))

/-- One iteration of the `_handle_anyof` loop appends the arm's type to
the accumulator and continues. -/
theorem anyofStep (defs : Defs) (fuel : Nat) (alt : Schema) (rest : List Schema)
    (baseName : String) (i : Nat) (types : List PyType) (cache : Cache)
    (t : PyType) (c1 : Cache)
    (h : ArmYields defs fuel alt baseName i cache t c1) :
    run defs (fuel + 1) (.anyof (alt :: rest) baseName i types) cache
      = run defs fuel (.anyof rest baseName (i + 1) (types ++ [t])) c1 := by
  rcases h with ⟨h1, ht, hc⟩ | ⟨h1, h2, hr⟩ | ⟨h1, h2, h3, hr⟩ | ⟨h1, h2, h3, hr⟩
  · subst ht
    subst hc
    simp [run, h1]
  · simp [run, h1, h2, hr]
  · simp [run, h1, h2, h3, hr]
  · simp [run, h1, h2, h3, hr]

theorem dedupPT_cons_ne_nil (x : PyType) (xs : List PyType) :
    dedupPT (x :: xs) ≠ [] := by
  simp [dedupPT, dedupPTGo]

/-- `Union[tuple(types)]` succeeds whenever the flattened argument list
is nonempty. -/
theorem unionSubscript_ok_of_flatten_ne_nil (ts : List PyType)
    (h : flattenUnions (ts.map toUnionArg) ≠ []) :
    ∃ u, unionSubscript ts = .ok u := by
  unfold unionSubscript
  rcases hl : flattenUnions (ts.map toUnionArg) with _ | ⟨x, xs⟩
  · exact absurd hl h
  · rcases hd : dedupPT (x :: xs) with _ | ⟨y, ys⟩
    · exact absurd hd (dedupPT_cons_ne_nil x xs)
    · cases ys with
      | nil => exact ⟨y, rfl⟩
      | cons z zs => exact ⟨.unionOf (y :: z :: zs), rfl⟩

theorem flatten_pair_left_ne_nil (t : PyType) :
    flattenUnions ([t, PyType.noneType].map toUnionArg) ≠ [] := by
  cases t <;> simp [toUnionArg, flattenUnions]

theorem flatten_pair_right_ne_nil (t : PyType) :
    flattenUnions ([PyType.noneType, t].map toUnionArg) ≠ [] := by
  cases t <;> simp [toUnionArg, flattenUnions]

/-- C6: an `anyOf` list consisting of exactly one effective (non-null)
alternative `T` plus a null alternative composes to a type that behaves
as an optional of `T` — a value is accepted iff it is valid for `T` or
is null, in either declaration order — and an `anyOf` whose compiled
alternative list is a singleton collapses to that single variant. -/
theorem c6_anyof_optional_null (defs : Defs) (fuel : Nat) (s nullAlt : Schema)
    (base : String) (cache c1 : Cache) (t : PyType)
    (hn : (nullAlt.type == some (.st "null")) = true) :
    (ArmYields defs (fuel + 2) s base 0 cache t c1 →
      ∃ u, run defs (fuel + 3) (.anyof [s, nullAlt] base 0 []) cache = .ok (u, c1) ∧
        ∀ rx v, accepts rx u v = (accepts rx t v || isNullV v)) ∧
    (ArmYields defs (fuel + 1) s base 1 cache t c1 →
      ∃ u, run defs (fuel + 3) (.anyof [nullAlt, s] base 0 []) cache = .ok (u, c1) ∧
        ∀ rx v, accepts rx u v = (accepts rx t v || isNullV v)) ∧
    (ArmYields defs (fuel + 1) s base 0 cache t c1 →
      run defs (fuel + 2) (.anyof [s] base 0 []) cache = .ok (t, c1)) := by
  refine ⟨?_, ?_, ?_⟩
  · intro harm
    obtain ⟨u, hu⟩ := unionSubscript_ok_of_flatten_ne_nil [t, .noneType]
      (flatten_pair_left_ne_nil t)
    refine ⟨u, ?_, ?_⟩
    · rw [anyofStep defs (fuel + 2) s [nullAlt] base 0 [] cache t c1 harm]
      simp only [List.nil_append, Nat.zero_add]
      rw [anyofStep defs (fuel + 1) nullAlt [] base 1 [t] c1 .noneType c1
        (.inl ⟨hn, rfl, rfl⟩)]
      have hnil : run defs (fuel + 1) (.anyof [] base (1 + 1) ([t] ++ [.noneType])) c1
          = (match unionSubscript [t, .noneType] with
             | .ok w => .ok (w, c1)
             | .error e => .error e) := rfl
      rw [hnil, hu]
    · intro rx v
      rw [unionSubscript_accepts [t, .noneType] u hu rx v]
      simp [accepts_noneType]
  · intro harm
    obtain ⟨u, hu⟩ := unionSubscript_ok_of_flatten_ne_nil [.noneType, t]
      (flatten_pair_right_ne_nil t)
    refine ⟨u, ?_, ?_⟩
    · rw [anyofStep defs (fuel + 2) nullAlt [s] base 0 [] cache .noneType cache
        (.inl ⟨hn, rfl, rfl⟩)]
      simp only [List.nil_append, Nat.zero_add]
      rw [anyofStep defs (fuel + 1) s [] base 1 [.noneType] cache t c1 harm]
      have hnil : run defs (fuel + 1) (.anyof [] base (1 + 1) ([.noneType] ++ [t])) c1
          = (match unionSubscript [.noneType, t] with
             | .ok w => .ok (w, c1)
             | .error e => .error e) := rfl
      rw [hnil, hu]
    · intro rx v
      rw [unionSubscript_accepts [.noneType, t] u hu rx v]
      simp [accepts_noneType, Bool.or_comm]
  · intro harm
    rw [anyofStep defs (fuel + 1) s [] base 0 [] cache t c1 harm]
    rfl

/-- Witness for C6 with `anyOf: [string, null]` and a singleton
`anyOf: [integer]`. -/
theorem c6_anyof_optional_null_witness :
    (∃ u, run [] 3 (.anyof [strSchema, nullSchema] "U" 0 []) [] = .ok (u, []) ∧
      ∀ rx v, accepts rx u v = (accepts rx .str v || isNullV v)) ∧
    run [] 2 (.anyof [intSchema] "W" 0 []) [] = .ok (.int, []) :=
  ⟨(c6_anyof_optional_null [] 0 strSchema nullSchema "U" [] [] .str (by decide)).1
      (.inr (.inr (.inr ⟨by decide, by decide, by decide, rfl⟩))),
   (c6_anyof_optional_null [] 0 intSchema nullSchema "W" [] [] .int (by decide)).2.2
      (.inr (.inr (.inr ⟨by decide, by decide, by decide, rfl⟩)))⟩

/-! Claim C3. -/

theorem acceptsElems_replicate_str (rx : String → String → Bool) (L : Nat) :
    acceptsElems rx .str (List.replicate L (.s "a")) = true := by
  induction L with
  | zero => simp [List.replicate, acceptsElems]
  | succ k ih => simp [List.replicate, acceptsElems, accepts, ih]

/-- C3 counterexample: an array node declaring `minItems = 1`,
`maxItems = 2` that occurs as a nested array element type loses its
bounds — the compiled type accepts the instance `[[]]` whose inner list
has length `0 ∉ [1, 2]`, which the claim says must be rejected.  The
compiled field records no length constraints at all for the inner
array. -/
theorem c3_counterexample :
    schemaToType 10
      (objSchema [("xs", arrSchema (arrSchema strSchema (some 1) (some 2)))] ["xs"])
      "M" [] []
      = .ok (.model "M" [("xs", .listOf (.listOf .str),
          ⟨.ellipsis, "", ⟨none, none⟩⟩)],
        [("M", some (.model "M" [("xs", .listOf (.listOf .str),
          ⟨.ellipsis, "", ⟨none, none⟩⟩)]))]) ∧
    accepts (fun _ _ => true)
      (.model "M" [("xs", .listOf (.listOf .str), ⟨.ellipsis, "", ⟨none, none⟩⟩)])
      (.obj [("xs", .arr [.arr []])]) = true ∧
    ¬ (1 ≤ (0 : Nat)) := by
  refine ⟨rfl, ?_, by decide⟩
  simp [accepts, acceptsFields, acceptsElems, lookupA, fieldArrOk]

/-- C3 (amended): `minItems`/`maxItems` are enforced only when the
array node is the direct value of an object property — the bounds are
attached to that field's kwargs — and there an instance list of length
`L` (with valid elements) is accepted iff `m ≤ L ≤ n`; an array
anywhere else (nested as an array element type, as a union alternative,
or at the document root) loses its bounds and accepts every length. -/
theorem c3_property_array_bounds (m n L : Nat) :
    schemaToType 5 (objSchema [("xs", arrSchema strSchema (some m) (some n))] ["xs"])
      "M" [] []
      = .ok (.model "M" [("xs", .listOf .str, ⟨.ellipsis, "", ⟨some m, some n⟩⟩)],
        [("M", some (.model "M"
          [("xs", .listOf .str, ⟨.ellipsis, "", ⟨some m, some n⟩⟩)]))]) ∧
    ∀ rx, (accepts rx
      (.model "M" [("xs", .listOf .str, ⟨.ellipsis, "", ⟨some m, some n⟩⟩)])
      (.obj [("xs", .arr (List.replicate L (.s "a")))]) = true
        ↔ (m ≤ L ∧ L ≤ n)) := by
  refine ⟨rfl, ?_⟩
  intro rx
  simp [accepts, acceptsFields, lookupA, fieldArrOk,
    acceptsElems_replicate_str, List.length_replicate]

/-! Claim C9. -/

theorem setDefs_defs (s : Schema) (d : List (String × Schema)) :
    (s.setDefs d).defs = d := by
  cases s
  rfl

/-- The compiler never reads the `$defs` field of the node it is
handed: replacing a document's definitions table leaves every
compilation step unchanged. -/
theorem run_node_setDefs (defs : Defs) (fuel : Nat) (s : Schema)
    (d : List (String × Schema)) (n : String) (cache : Cache) :
    run defs fuel (.node (s.setDefs d) n) cache = run defs fuel (.node s n) cache := by
  cases fuel with
  | zero => rfl
  | succ f => cases s <;> rfl

/-- On reference-free input the compiler never consults the `$defs`
table: runs with different tables coincide. -/
theorem run_refFree (d1 d2 : Defs) : ∀ (fuel : Nat) (call : Call) (cache : Cache),
    (match call with
     | .node s _ => refFreeS s = true
     | .ref _ => False
     | .anyof alts _ _ _ => refFreeL alts = true
     | .props ps _ _ _ => refFreeP ps = true) →
    run d1 fuel call cache = run d2 fuel call cache := by
  intro fuel
  induction fuel with
  | zero => intros; rfl
  | succ f ih =>
    intro call cache hrf
    cases call with
    | node s typeName =>
      cases s with
      | mk r a e t p rq it pa fo mnl mxl mi ma emi ema mo mni mxi de dd =>
        simp only [refFreeS] at hrf
        rw [Bool.and_eq_true, Bool.and_eq_true, Bool.and_eq_true] at hrf
        obtain ⟨⟨⟨hr0, ha⟩, hp⟩, hit⟩ := hrf
        have hr := Option.isNone_iff_eq_none.mp hr0
        subst hr
        cases a with
        | some alts =>
          have h2 := ih (.anyof alts typeName 0 []) cache (by simpa [refFreeOL] using ha)
          simp only [run, Schema.ref, Schema.anyOf]
          exact h2
        | none =>
          cases e with
          | some vs => rfl
          | none =>
            cases t with
            | none => rfl
            | some st =>
              cases st with
              | tl kinds => rfl
              | st kind =>
                by_cases hobj : kind = "object"
                · subst hobj
                  rcases hc : cacheGet cache typeName with _ | entry
                  · have h2 := ih (.props p typeName rq [])
                      (cacheSet cache typeName none) hp
                    simp only [run, Schema.ref, Schema.anyOf, Schema.enum,
                      Schema.type, Schema.properties, Schema.required, hc]
                    exact h2
                  · simp only [run, Schema.ref, Schema.anyOf, Schema.enum,
                      Schema.type, hc]
                · by_cases harr : kind = "array"
                  · subst harr
                    have hitems : refFreeS (Option.getD it Schema.empty) = true := by
                      revert hit
                      cases it with
                      | none => intro _; rfl
                      | some i => intro hit; simpa [refFreeO] using hit
                    have h2 := ih (.node (Option.getD it Schema.empty)
                      (typeName ++ "Item")) cache hitems
                    simp only [run, Schema.ref, Schema.anyOf, Schema.enum,
                      Schema.type, Schema.items]
                    rw [h2]
                  · by_cases h3 : kind = "string"
                    · subst h3; rfl
                    · by_cases h4 : kind = "integer"
                      · subst h4; rfl
                      · by_cases h5 : kind = "number"
                        · subst h5; rfl
                        · by_cases h6 : kind = "boolean"
                          · subst h6; rfl
                          · by_cases h7 : kind = "null"
                            · subst h7; rfl
                            · simp only [run, Schema.ref, Schema.anyOf, Schema.enum,
                                Schema.type, hobj, harr, h3, h4, h5, h6, h7]
    | ref r => exact absurd hrf (by simp)
    | anyof alts baseName i types =>
      cases alts with
      | nil => rfl
      | cons alt rest =>
        simp only [refFreeL, Bool.and_eq_true] at hrf
        obtain ⟨halt, hrest⟩ := hrf
        simp only [run]
        by_cases h1 : (alt.type == some (.st "null")) = true
        · simp only [h1, if_true]
          exact ih (.anyof rest baseName (i + 1) (types ++ [.noneType])) cache hrest
        · simp only [h1]
          by_cases h2 : (alt.type == some (.st "object")) = true
          · simp only [h2, if_true, Bool.false_eq_true, if_false]
            rw [ih (.node alt (baseName ++ "Option" ++ toString i)) cache halt]
            cases run d2 f (.node alt (baseName ++ "Option" ++ toString i)) cache with
            | error e => rfl
            | ok res =>
              exact ih (.anyof rest baseName (i + 1) (types ++ [res.1])) res.2 hrest
          · have hrefnone : alt.ref.isSome = false := by
              cases alt with
              | mk r2 a2 e2 t2 p2 rq2 it2 pa2 fo2 mnl2 mxl2 mi2 ma2 emi2 ema2 mo2
                  mni2 mxi2 de2 dd2 =>
                simp only [refFreeS, Bool.and_eq_true, Option.isNone_iff_eq_none] at halt
                simp [Schema.ref, halt.1]
            simp only [h2, hrefnone, Bool.false_eq_true, if_false]
            rw [ih (.node alt (baseName ++ "_" ++ toString i)) cache halt]
            cases run d2 f (.node alt (baseName ++ "_" ++ toString i)) cache with
            | error e => rfl
            | ok res =>
              exact ih (.anyof rest baseName (i + 1) (types ++ [res.1])) res.2 hrest
    | props ps typeName req fields =>
      cases ps with
      | nil => rfl
      | cons p rest =>
        obtain ⟨fn, fi⟩ := p
        simp only [refFreeP, Bool.and_eq_true] at hrf
        obtain ⟨hfi, hrest⟩ := hrf
        simp only [run]
        rw [ih (.node fi (typeName ++ "_" ++ fn)) cache hfi]
        cases run d2 f (.node fi (typeName ++ "_" ++ fn)) cache with
        | error e => rfl
        | ok res =>
          exact ih (.props rest typeName req
            (fields ++ [buildField typeName req fn fi res.1])) res.2 hrest

/-- C9: for a schema document containing no references, two
independent compiler invocations on the same document and root name
yield structurally identical compiled results; each invocation builds
its own fresh empty cache (definitionally, in
`create_pydantic_model_from_json_schema`), and the result is
independent of the `$defs` table entirely, so no state whatsoever is
shared between the two runs. -/
theorem c9_reffree_purity (fuel : Nat) (doc : Schema) (n : String)
    (h : refFreeS doc = true) (d1 d2 : List (String × Schema)) :
    createPydanticModelFromJsonSchema fuel (doc.setDefs d1) n
      = createPydanticModelFromJsonSchema fuel (doc.setDefs d2) n := by
  unfold createPydanticModelFromJsonSchema schemaToType
  rw [setDefs_defs, setDefs_defs]
  rw [run_node_setDefs d1 fuel doc d1 n [], run_node_setDefs d2 fuel doc d2 n []]
  rw [run_refFree d1 d2 fuel (.node doc n) [] h]

/-- Witness for C9: the same ref-free document compiled against two
different definitions tables gives identical results. -/
theorem c9_reffree_purity_witness :
    createPydanticModelFromJsonSchema 5
      ((objSchema [("a", strSchema)] ["a"]).setDefs [("X", strSchema)]) "M"
      = createPydanticModelFromJsonSchema 5
        ((objSchema [("a", strSchema)] ["a"]).setDefs []) "M" :=
  c9_reffree_purity 5 (objSchema [("a", strSchema)] ["a"]) "M" (by decide)
    [("X", strSchema)] []

/-! Claim C1: termination and placeholder resolution for
self-referential object definitions.  The embedding replaces Python's
unbounded recursion with fuel, so "compilation terminates" is rendered
as: some finite fuel makes the run return `ok` (and more fuel cannot
change a returned result, as the fuel check is only reached when the
recursion actually continues). -/

mutual

/-- Structural size of a schema tree (children strictly smaller). -/
def sizeS : Schema → Nat
  | .mk _ a _ _ props _ items _ _ _ _ _ _ _ _ _ _ _ _ _ =>
    1 + sizeOL a + sizeP props + sizeO items
termination_by structural s => s

def sizeOL : Option (List Schema) → Nat
  | none => 0
  | some l => sizeL l
termination_by structural o => o

def sizeL : List Schema → Nat
  | [] => 1
  | s :: rest => sizeS s + sizeL rest
termination_by structural l => l

def sizeP : List (String × Schema) → Nat
  | [] => 1
  | (_, s) :: rest => sizeS s + sizeP rest
termination_by structural l => l

def sizeO : Option Schema → Nat
  | none => 0
  | some s => sizeS s
termination_by structural o => o

end

/-- A compiled type that is not a `Union` alias. -/
def nonUnion : PyType → Bool
  | .unionOf _ => false
  | _ => true

/-- The shape invariant of compiler results: either not a union, or a
union of at least two non-union members (exactly what `Union[tuple]`
subscription produces). -/
def flatOK : PyType → Bool
  | .unionOf ms => decide (2 ≤ ms.length) && ms.all nonUnion
  | _ => true

/-- Cache whose concrete entries satisfy the result-shape invariant. -/
def CacheGood (c : Cache) : Prop :=
  ∀ k t, cacheGet c k = some (some t) → flatOK t = true

/-- Number of definitions not yet present in the cache. -/
def uncachedCount (defs : Defs) (cache : Cache) : Nat :=
  defs.countP (fun kv => (cacheGet cache kv.1).isNone)

/-- Largest size of any definition body. -/
def maxDefSize (defs : Defs) : Nat :=
  defs.foldr (fun kv acc => max (sizeS kv.2) acc) 0

theorem lookupA_mem {α : Type} (l : List (String × α)) (k : String) (v : α)
    (h : lookupA l k = some v) : (k, v) ∈ l := by
  induction l with
  | nil => cases h
  | cons kv rest ih =>
    obtain ⟨k0, v0⟩ := kv
    simp only [lookupA] at h
    split at h
    · rename_i hk
      cases h
      rw [beq_iff_eq] at hk
      subst hk
      exact .head _
    · exact .tail _ (ih h)

theorem sizeS_le_maxDefSize (defs : Defs) (d : String) (body : Schema)
    (h : defsGet defs d = some body) : sizeS body ≤ maxDefSize defs := by
  have hm := lookupA_mem defs d body h
  clear h
  induction defs with
  | nil => cases hm
  | cons kv rest ih =>
    simp only [maxDefSize, List.foldr_cons]
    cases hm with
    | head => exact le_max_left _ _
    | tail _ hmem => exact le_trans (ih hmem) (le_max_right _ _)

theorem wfDefs_get (defs : Defs) (hd : wfDefs defs = true) (d : String) (body : Schema)
    (h : defsGet defs d = some body) :
    isObjectNode body = true ∧ wfS defs body = true := by
  have hm := lookupA_mem defs d body h
  have := List.all_eq_true.mp hd _ hm
  simpa [Bool.and_eq_true] using this

theorem uncached_mono (defs : Defs) (c c2 : Cache) (h : KeysMono c c2) :
    uncachedCount defs c2 ≤ uncachedCount defs c := by
  unfold uncachedCount
  apply List.countP_mono_left
  intro kv _ hkv
  rcases hc : cacheGet c kv.1 with _ | e
  · simp
  · have := h kv.1 (by simp [hc])
    simp only [Option.isNone_iff_eq_none] at hkv
    rw [hkv] at this
    cases this

theorem uncached_set_lt (defs : Defs) (c : Cache) (d : String) (body : Schema)
    (v : Option PyType) (hd : defsGet defs d = some body)
    (hmiss : cacheGet c d = none) :
    uncachedCount defs (cacheSet c d v) < uncachedCount defs c := by
  have hm := lookupA_mem defs d body hd
  unfold uncachedCount
  clear hd
  induction defs with
  | nil => cases hm
  | cons kv rest ih =>
    obtain ⟨k0, b0⟩ := kv
    rcases List.mem_cons.mp hm with he | hmem
    · cases he
      simp only [List.countP_cons]
      have h1 : (cacheGet (cacheSet c d v) d).isNone = false := by
        simp [cacheGet_set_self]
      have h2 : (cacheGet c d).isNone = true := by simp [hmiss]
      rw [h1, h2]
      simp only [Bool.false_eq_true, if_false, if_true]
      have hle : rest.countP (fun kv => (cacheGet (cacheSet c d v) kv.1).isNone)
          ≤ rest.countP (fun kv => (cacheGet c kv.1).isNone) := by
        apply List.countP_mono_left
        intro kv _ hkv
        simp only [Option.isNone_iff_eq_none] at hkv ⊢
        by_cases he2 : d = kv.1
        · rw [← he2] at hkv
          rw [cacheGet_set_self] at hkv
          cases hkv
        · rwa [cacheGet_set_ne c d kv.1 v he2] at hkv
      omega
    · simp only [List.countP_cons]
      have hle : (if (cacheGet (cacheSet c d v) k0).isNone = true then 1 else 0)
          ≤ (if (cacheGet c k0).isNone = true then 1 else 0) := by
        by_cases he2 : d = k0
        · subst he2
          simp [cacheGet_set_self, hmiss]
        · rw [cacheGet_set_ne c d k0 v he2]
      have := ih hmem
      omega

theorem toUnionArg_flatOK (t : PyType) (h : flatOK t = true) :
    flatOK (toUnionArg t) = true := by
  cases t <;> simpa [toUnionArg, flatOK] using h

theorem flattenUnions_ne_nil (ts : List PyType) (hne : ts ≠ [])
    (h : ∀ t ∈ ts, flatOK t = true) : flattenUnions ts ≠ [] := by
  cases ts with
  | nil => exact absurd rfl hne
  | cons t rest =>
    cases t with
    | unionOf ms =>
      have := h (.unionOf ms) (.head _)
      simp only [flatOK, Bool.and_eq_true, decide_eq_true_eq] at this
      cases ms with
      | nil => simp at this
      | cons m ms2 => simp [flattenUnions]
    | _ => simp [flattenUnions]

theorem flattenUnions_nonUnion (ts : List PyType) (h : ∀ t ∈ ts, flatOK t = true) :
    ∀ x ∈ flattenUnions ts, nonUnion x = true := by
  induction ts with
  | nil => intro x hx; cases hx
  | cons t rest ih =>
    intro x hx
    have hrest : ∀ t2 ∈ rest, flatOK t2 = true := fun t2 h2 => h t2 (.tail _ h2)
    cases t with
    | unionOf ms =>
      have hm := h (.unionOf ms) (.head _)
      simp only [flatOK, Bool.and_eq_true] at hm
      simp only [flattenUnions, List.mem_append] at hx
      rcases hx with hx | hx
      · exact List.all_eq_true.mp hm.2 x hx
      · exact ih hrest x hx
    | _ =>
      first
      | (simp only [flattenUnions, List.mem_cons] at hx
         rcases hx with hx | hx
         · subst hx; rfl
         · exact ih hrest x hx)

theorem mem_dedupPT_sub (ts : List PyType) (x : PyType) (h : x ∈ dedupPT ts) :
    x ∈ ts :=
  ((mem_dedupPTGo [] ts x).mp h).1

/-- `Union[tuple(types)]` on a nonempty list of shape-correct types
succeeds and returns a shape-correct type. -/
theorem unionSubscript_ok_flat (ts : List PyType) (hne : ts ≠ [])
    (h : ∀ t ∈ ts, flatOK t = true) :
    ∃ u, unionSubscript ts = .ok u ∧ flatOK u = true := by
  have hmapOK : ∀ t ∈ ts.map toUnionArg, flatOK t = true := by
    intro t ht
    obtain ⟨t0, ht0, he⟩ := List.mem_map.mp ht
    exact he ▸ toUnionArg_flatOK t0 (h t0 ht0)
  have hmapne : ts.map toUnionArg ≠ [] := by
    cases ts with
    | nil => exact absurd rfl hne
    | cons a b => simp
  have hflatne := flattenUnions_ne_nil (ts.map toUnionArg) hmapne hmapOK
  have hflatnu := flattenUnions_nonUnion (ts.map toUnionArg) hmapOK
  unfold unionSubscript
  rcases hl : flattenUnions (ts.map toUnionArg) with _ | ⟨x, xs⟩
  · exact absurd hl hflatne
  · rcases hd : dedupPT (x :: xs) with _ | ⟨y, ys⟩
    · exact absurd hd (dedupPT_cons_ne_nil x xs)
    · have hmem : ∀ z ∈ y :: ys, nonUnion z = true := by
        intro z hz
        apply hflatnu
        rw [hl]
        exact mem_dedupPT_sub _ z (hd ▸ hz)
      cases ys with
      | nil =>
        refine ⟨y, rfl, ?_⟩
        have := hmem y (.head _)
        cases y <;> simp_all [nonUnion, flatOK]
      | cons z zs =>
        refine ⟨.unionOf (y :: z :: zs), rfl, ?_⟩
        simp only [flatOK, Bool.and_eq_true, decide_eq_true_eq]
        constructor
        · simp
        · exact List.all_eq_true.mpr hmem

/-- The fuel bound used in the termination proof. -/
def BB (defs : Defs) : Nat := maxDefSize defs + 1

/-- The call measure: a bound on the remaining recursion depth. -/
def callMu (defs : Defs) (call : Call) (cache : Cache) : Nat :=
  match call with
  | .node s _ => uncachedCount defs cache * BB defs + sizeS s + 1
  | .ref _ => uncachedCount defs cache * BB defs + 1
  | .anyof alts _ _ _ => uncachedCount defs cache * BB defs + sizeL alts + 1
  | .props ps _ _ _ => uncachedCount defs cache * BB defs + sizeP ps + 1

/-- Wellformedness of a pending call. -/
def callTermWF (defs : Defs) : Call → Prop
  | .node s _ => wfS defs s = true
  | .ref r => (r == "#") = false ∧ strStartsWith r "#/$defs/" = true ∧
      (defsGet defs (refDefName r)).isSome = true
  | .anyof alts _ _ types => wfL defs alts = true ∧ 1 ≤ alts.length + types.length ∧
      ∀ t ∈ types, flatOK t = true
  | .props ps _ _ _ => wfP defs ps = true

theorem sizeS_pos (s : Schema) : 1 ≤ sizeS s := by
  cases s
  simp only [sizeS]
  omega

theorem sizeL_pos (l : List Schema) : 1 ≤ sizeL l := by
  induction l with
  | nil => simp [sizeL]
  | cons s rest ih =>
    simp only [sizeL]
    have := sizeS_pos s
    omega

theorem sizeP_pos (l : List (String × Schema)) : 1 ≤ sizeP l := by
  induction l with
  | nil => simp [sizeP]
  | cons p rest ih =>
    obtain ⟨k, s⟩ := p
    simp only [sizeP]
    have := sizeS_pos s
    omega

theorem sizeS_decomp (s : Schema) :
    sizeS s = 1 + sizeOL s.anyOf + sizeP s.properties + sizeO s.items := by
  cases s
  rfl

/-- All wellformedness facts packaged per keyword. -/
theorem wfS_parts (defs : Defs) (s : Schema) (h : wfS defs s = true) :
    (∀ rf, s.ref = some rf → (rf == "#") = false ∧
      strStartsWith rf "#/$defs/" = true ∧
      (defsGet defs (refDefName rf)).isSome = true) ∧
    (∀ alts, s.anyOf = some alts → alts.isEmpty = false ∧ wfL defs alts = true) ∧
    (∀ kinds, s.type = some (.tl kinds) →
      (kinds.filterMap typeListKind).isEmpty = false) ∧
    wfP defs s.properties = true ∧
    wfO defs s.items = true := by
  cases s with
  | mk r a e t p rq it pa fo mnl mxl mi ma emi ema mo mni mxi de dd =>
    simp only [wfS] at h
    rw [Bool.and_eq_true, Bool.and_eq_true, Bool.and_eq_true, Bool.and_eq_true,
      Bool.and_eq_true] at h
    obtain ⟨⟨⟨⟨⟨h1, h2⟩, h3⟩, h4⟩, h5⟩, h6⟩ := h
    refine ⟨?_, ?_, ?_, h5, h6⟩
    · intro rf hrf
      simp only [Schema.ref] at hrf
      subst hrf
      simp only [Bool.and_eq_true, bne_iff_ne] at h1
      exact ⟨beq_eq_false_iff_ne.mpr h1.1.1, h1.1.2, h1.2⟩
    · intro alts halts
      simp only [Schema.anyOf] at halts
      subst halts
      simp only [Bool.not_eq_true'] at h2
      simp only [wfOL] at h3
      exact ⟨h2, h3⟩
    · intro kinds hk
      simp only [Schema.type] at hk
      subst hk
      simpa [Bool.not_eq_true'] using h4

theorem wfL_parts (defs : Defs) (s : Schema) (rest : List Schema)
    (h : wfL defs (s :: rest) = true) : wfS defs s = true ∧ wfL defs rest = true := by
  simpa [wfL, Bool.and_eq_true] using h

theorem wfP_parts (defs : Defs) (fn : String) (s : Schema)
    (rest : List (String × Schema)) (h : wfP defs ((fn, s) :: rest) = true) :
    wfS defs s = true ∧ wfP defs rest = true := by
  simpa [wfP, Bool.and_eq_true] using h

theorem isObjectNode_parts (s : Schema) (h : isObjectNode s = true) :
    s.ref = none ∧ s.anyOf = none ∧ s.enum = none ∧ s.type = some (.st "object") := by
  simp only [isObjectNode, Bool.and_eq_true, Option.isNone_iff_eq_none,
    beq_iff_eq] at h
  exact ⟨h.1.1.1, h.1.1.2, h.1.2, h.2⟩

theorem cacheGood_set_none (c : Cache) (k : String) (h : CacheGood c) :
    CacheGood (cacheSet c k none) := by
  intro k2 t2 h2
  by_cases he : k = k2
  · subst he
    rw [cacheGet_set_self] at h2
    cases h2
  · rw [cacheGet_set_ne c k k2 none he] at h2
    exact h k2 t2 h2

theorem cacheGood_set_some (c : Cache) (k : String) (t : PyType) (h : CacheGood c)
    (ht : flatOK t = true) : CacheGood (cacheSet c k (some t)) := by
  intro k2 t2 h2
  by_cases he : k = k2
  · subst he
    rw [cacheGet_set_self] at h2
    cases h2
    exact ht
  · rw [cacheGet_set_ne c k k2 _ he] at h2
    exact h k2 t2 h2

theorem typeListKind_flatOK (k : String) (t : PyType) (h : typeListKind k = some t) :
    flatOK t = true := by
  unfold typeListKind at h
  split at h <;> cases h <;> rfl

theorem sizeP_le_sizeS (s : Schema) : sizeP s.properties + 1 ≤ sizeS s := by
  rw [sizeS_decomp]
  omega

end StructuredOutput

namespace StructuredOutput

set_option maxHeartbeats 2000000

/-- Main termination/success lemma: on wellformed input, enough fuel
makes the compiler return a shape-correct result. -/
theorem runTerm (defs : Defs) (hdefs : wfDefs defs = true) :
    ∀ (F : Nat) (call : Call) (cache : Cache),
      callTermWF defs call → callPre call cache → CacheGood cache →
      callMu defs call cache < F →
      ∃ t c2, run defs F call cache = .ok (t, c2) ∧ flatOK t = true ∧ CacheGood c2 := by
  intro F
  induction F using Nat.strong_induction_on with
  | _ F ih =>
  intro call cache hwf hpre hgood hmu
  rcases F with _ | F'
  · exact absurd hmu (Nat.not_lt_zero _)
  cases call with
  | node s typeName =>
    simp only [callTermWF] at hwf
    obtain ⟨href, hanyof, htl, hwfP, hwfO⟩ := wfS_parts defs s hwf
    simp only [callMu] at hmu
    rcases hr : s.ref with _ | rf
    · rcases ha : s.anyOf with _ | alts
      · rcases he : s.enum with _ | vs
        · rcases ht : s.type with _ | st
          · exact ⟨.anyT, cache, by simp [run, hr, ha, he, ht], rfl, hgood⟩
          · cases st with
            | tl kinds =>
              have hne := htl kinds ht
              by_cases hlen : 1 < (kinds.filterMap typeListKind).length
              · have hflats : ∀ t ∈ kinds.filterMap typeListKind, flatOK t = true := by
                  intro t htm
                  obtain ⟨k, _, hk⟩ := List.mem_filterMap.mp htm
                  exact typeListKind_flatOK k t hk
                have hnil : kinds.filterMap typeListKind ≠ [] := by
                  intro hx
                  rw [hx] at hlen
                  simp at hlen
                obtain ⟨u, hu, hufl⟩ := unionSubscript_ok_flat _ hnil hflats
                exact ⟨u, cache, by simp [run, hr, ha, he, ht, hlen, hu], hufl, hgood⟩
              · rcases hfm : kinds.filterMap typeListKind with _ | ⟨t0, rest0⟩
                · rw [hfm] at hne
                  cases hne
                · have hfl : flatOK t0 = true := by
                    have hmem : t0 ∈ kinds.filterMap typeListKind := by
                      rw [hfm]
                      exact .head _
                    obtain ⟨k, _, hk⟩ := List.mem_filterMap.mp hmem
                    exact typeListKind_flatOK k t0 hk
                  have hrest0 : rest0 = [] := by
                    rw [hfm] at hlen
                    cases rest0 with
                    | nil => rfl
                    | cons x xs => simp at hlen
                  subst hrest0
                  exact ⟨t0, cache, by simp [run, hr, ha, he, ht, hfm], hfl, hgood⟩
            | st kind =>
              by_cases hobj : kind = "object"
              · subst hobj
                rcases hc : cacheGet cache typeName with _ | entry
                · have hgood1 := cacheGood_set_none cache typeName hgood
                  have hmu1 : callMu defs (.props s.properties typeName s.required [])
                      (cacheSet cache typeName none) < F' := by
                    simp only [callMu]
                    have hum := uncached_mono defs cache (cacheSet cache typeName none)
                      (keysMono_set cache typeName none)
                    have hszP := sizeP_le_sizeS s
                    have hmul := Nat.mul_le_mul_right (BB defs) hum
                    omega
                  obtain ⟨t, c2, hrun, hfl, hg2⟩ := ih F' (Nat.lt_succ_self F')
                    (.props s.properties typeName s.required [])
                    (cacheSet cache typeName none)
                    hwfP (by simp [callPre, cacheGet_set_self]) hgood1 hmu1
                  exact ⟨t, c2, by simp only [run, hr, ha, he, ht, hc]; exact hrun,
                    hfl, hg2⟩
                · rcases entry with _ | t0
                  · exact ⟨.noneVal, cache, by simp [run, hr, ha, he, ht, hc], rfl, hgood⟩
                  · exact ⟨t0, cache, by simp [run, hr, ha, he, ht, hc],
                      hgood _ _ hc, hgood⟩
              · by_cases harr : kind = "array"
                · subst harr
                  rcases hit : s.items with _ | i
                  · rcases F' with _ | F''
                    · have := sizeS_pos s
                      omega
                    · have hchild : run defs (F'' + 1)
                          (.node Schema.empty (typeName ++ "Item")) cache
                          = .ok (.anyT, cache) := rfl
                      refine ⟨.listOf .anyT, cache, ?_, rfl, hgood⟩
                      have e1 : run defs (F'' + 1 + 1) (.node s typeName) cache
                          = (match run defs (F'' + 1)
                              (.node (s.items.getD Schema.empty) (typeName ++ "Item"))
                              cache with
                            | .error e => .error e
                            | .ok (itemType, cache1) =>
                              match itemType with
                              | .pyStr f => .ok (.pyStr (.listWrap f), cache1)
                              | _ => .ok (.listOf itemType, cache1)) := by
                        simp only [run, hr, ha, he, ht]
                      rw [e1, hit]
                      simp only [Option.getD, hchild]
                  · have hmu1 : callMu defs (.node i (typeName ++ "Item")) cache < F' := by
                      simp only [callMu]
                      have hdec := sizeS_decomp s
                      rw [hit] at hdec
                      simp only [sizeO] at hdec
                      have := sizeP_pos s.properties
                      omega
                    have hwfi : wfS defs i = true := by
                      have := hwfO
                      rw [hit] at this
                      simpa [wfO] using this
                    obtain ⟨t1, c1, hrun1, hfl1, hg1⟩ := ih F' (Nat.lt_succ_self F')
                      (.node i (typeName ++ "Item")) cache hwfi trivial hgood hmu1
                    have hres : ∃ t2, ((match t1 with
                        | PyType.pyStr f => Except.ok (PyType.pyStr (.listWrap f), c1)
                        | _ => Except.ok (PyType.listOf t1, c1)) :
                          Except Err (PyType × Cache))
                          = Except.ok (t2, c1) ∧ flatOK t2 = true := by
                      cases t1 <;> exact ⟨_, rfl, rfl⟩
                    obtain ⟨t2, hm, hfl2⟩ := hres
                    refine ⟨t2, c1, ?_, hfl2, hg1⟩
                    simp only [run, hr, ha, he, ht, hit, Option.getD, hrun1]
                    exact hm
                · by_cases h3 : kind = "string"
                  · subst h3
                    refine ⟨(if (getStringConstraints s).isEmpty then .str
                      else .constrStr (getStringConstraints s)), cache,
                      by simp [run, hr, ha, he, ht], ?_, hgood⟩
                    split <;> rfl
                  · by_cases h4 : kind = "integer"
                    · subst h4
                      refine ⟨(if (getNumberConstraints s).isEmpty then .int
                        else .constrInt (getNumberConstraints s)), cache,
                        by simp [run, hr, ha, he, ht], ?_, hgood⟩
                      split <;> rfl
                    · by_cases h5 : kind = "number"
                      · subst h5
                        refine ⟨(if (getNumberConstraints s).isEmpty then .float
                          else .constrFloat (getNumberConstraints s)), cache,
                          by simp [run, hr, ha, he, ht], ?_, hgood⟩
                        split <;> rfl
                      · by_cases h6 : kind = "boolean"
                        · subst h6
                          exact ⟨.bool, cache, by simp [run, hr, ha, he, ht], rfl, hgood⟩
                        · by_cases h7 : kind = "null"
                          · subst h7
                            exact ⟨.noneType, cache, by simp [run, hr, ha, he, ht],
                              rfl, hgood⟩
                          · exact ⟨.anyT, cache,
                              by simp only [run, hr, ha, he, ht, hobj, harr, h3, h4,
                                h5, h6, h7], rfl, hgood⟩
        · exact ⟨.literal vs, cache, by simp [run, hr, ha, he], rfl, hgood⟩
      · obtain ⟨hempty, hwl⟩ := hanyof alts ha
        have hlen : 1 ≤ alts.length + ([] : List PyType).length := by
          cases alts with
          | nil => cases hempty
          | cons x xs => simp
        have hmu1 : callMu defs (.anyof alts typeName 0 []) cache < F' := by
          simp only [callMu]
          have hdec := sizeS_decomp s
          rw [ha] at hdec
          simp only [sizeOL] at hdec
          have := sizeP_pos s.properties
          omega
        obtain ⟨t, c2, hrun, hfl, hg2⟩ := ih F' (Nat.lt_succ_self F')
          (.anyof alts typeName 0 []) cache
          ⟨hwl, hlen, fun t ht => absurd ht (List.not_mem_nil t)⟩ trivial hgood hmu1
        exact ⟨t, c2, by simp only [run, hr, ha]; exact hrun, hfl, hg2⟩
    · obtain ⟨hbf, hsw, hsome⟩ := href rf hr
      have hmu1 : callMu defs (.ref rf) cache < F' := by
        simp only [callMu]
        have := sizeS_pos s
        omega
      obtain ⟨t, c2, hrun, hfl, hg2⟩ := ih F' (Nat.lt_succ_self F') (.ref rf) cache
        ⟨hbf, hsw, hsome⟩ trivial hgood hmu1
      exact ⟨t, c2, by simp only [run, hr, hbf, Bool.false_eq_true, if_false]; exact hrun,
        hfl, hg2⟩
  | ref r =>
    obtain ⟨hbf, hsw, hsome⟩ := hwf
    simp only [callMu] at hmu
    rcases hc : cacheGet cache (refDefName r) with _ | entry
    · rcases hdg : defsGet defs (refDefName r) with _ | body
      · rw [hdg] at hsome
        cases hsome
      · obtain ⟨hobj, hwfbody⟩ := wfDefs_get defs hdefs _ body hdg
        obtain ⟨hbr, hba, hbe, hbt⟩ := isObjectNode_parts body hobj
        have hu1 : 0 < uncachedCount defs cache := by
          unfold uncachedCount
          refine List.countP_pos.mpr ⟨(refDefName r, body), lookupA_mem defs _ body hdg, ?_⟩
          simp [hc]
        have hBpos : 1 ≤ BB defs := by simp [BB]
        have humul : 1 ≤ uncachedCount defs cache * BB defs :=
          Nat.mul_pos hu1 (by omega)
        rcases F' with _ | F''
        · omega
        · have hmu1 : callMu defs
              (.props body.properties (refDefName r) body.required [])
              (cacheSet cache (refDefName r) none) < F'' := by
            simp only [callMu]
            have hlt := uncached_set_lt defs cache (refDefName r) body none hdg hc
            have hsz1 := sizeP_le_sizeS body
            have hsz2 := sizeS_le_maxDefSize defs _ body hdg
            have hBB : sizeS body + 1 ≤ BB defs := by
              simp only [BB]
              omega
            have hle : uncachedCount defs (cacheSet cache (refDefName r) none) + 1 ≤
              uncachedCount defs cache := hlt
            have hmul := Nat.mul_le_mul_right (BB defs) hle
            rw [Nat.add_mul, Nat.one_mul] at hmul
            omega
          have hwfbp : wfP defs body.properties = true :=
            (wfS_parts defs body hwfbody).2.2.2.1
          obtain ⟨t, c2, hrun, hfl, hg2⟩ := ih F'' (by omega)
            (.props body.properties (refDefName r) body.required [])
            (cacheSet cache (refDefName r) none) hwfbp
            (by simp [callPre, cacheGet_set_self])
            (cacheGood_set_none cache _ hgood) hmu1
          have e1 : run defs (F'' + 2) (.ref r) cache
              = run defs (F'' + 1) (.node body (refDefName r)) cache := by
            simp [run, hbf, hsw, hc, hdg]
          have e2 : run defs (F'' + 1) (.node body (refDefName r)) cache
              = run defs F''
                (.props body.properties (refDefName r) body.required [])
                (cacheSet cache (refDefName r) none) := by
            simp [run, hbr, hba, hbe, hbt, hc]
          refine ⟨t, c2, ?_, hfl, hg2⟩
          rw [e1, e2]
          exact hrun
    · rcases entry with _ | t0
      · exact ⟨.pyStr (.name (refDefName r)), cache, by simp [run, hbf, hsw, hc],
          rfl, hgood⟩
      · exact ⟨t0, cache, by simp [run, hbf, hsw, hc], hgood _ _ hc, hgood⟩
  | anyof alts baseName i types =>
    obtain ⟨hwl, hlen, hflat⟩ := hwf
    simp only [callMu] at hmu
    cases alts with
    | nil =>
      rcases types with _ | ⟨t0, _ | ⟨t1, rest⟩⟩
      · simp at hlen
      · exact ⟨t0, cache, by simp [run], hflat t0 (.head _), hgood⟩
      · obtain ⟨u, hu, hufl⟩ := unionSubscript_ok_flat (t0 :: t1 :: rest) (by simp) hflat
        exact ⟨u, cache, by simp [run, hu], hufl, hgood⟩
    | cons alt rest =>
      obtain ⟨hwa, hwr⟩ := wfL_parts defs alt rest hwl
      have hszalt := sizeS_pos alt
      have hszrest := sizeL_pos rest
      simp only [sizeL] at hmu
      by_cases h1 : (alt.type == some (.st "null")) = true
      · have hmu1 : callMu defs (.anyof rest baseName (i + 1) (types ++ [.noneType]))
            cache < F' := by
          simp only [callMu]
          omega
        have hflat1 : ∀ t ∈ types ++ [PyType.noneType], flatOK t = true := by
          intro t ht
          rcases List.mem_append.mp ht with ht | ht
          · exact hflat t ht
          · rw [List.mem_singleton.mp ht]
            rfl
        obtain ⟨t, c2, hrun, hfl, hg2⟩ := ih F' (Nat.lt_succ_self F')
          (.anyof rest baseName (i + 1) (types ++ [.noneType])) cache
          ⟨hwr, by simp; omega, hflat1⟩ trivial hgood hmu1
        have harm : ArmYields defs F' alt baseName i cache .noneType cache :=
          .inl ⟨h1, rfl, rfl⟩
        refine ⟨t, c2, ?_, hfl, hg2⟩
        rw [anyofStep defs F' alt rest baseName i types cache .noneType cache harm]
        exact hrun
      · have h1f : (alt.type == some (.st "null")) = false := by
          simpa using h1
        by_cases h2 : (alt.type == some (.st "object")) = true
        · have hmu1 : callMu defs (.node alt (baseName ++ "Option" ++ toString i))
              cache < F' := by
            simp only [callMu]
            omega
          obtain ⟨t1, c1, hrun1, hfl1, hg1⟩ := ih F' (Nat.lt_succ_self F')
            (.node alt (baseName ++ "Option" ++ toString i)) cache hwa trivial
            hgood hmu1
          have hkm := (runPres defs F' (.node alt (baseName ++ "Option" ++ toString i))
            cache t1 c1 (by trivial) hrun1).1
          have hum := uncached_mono defs cache c1 hkm
          have hmul := Nat.mul_le_mul_right (BB defs) hum
          have hmu2 : callMu defs (.anyof rest baseName (i + 1) (types ++ [t1])) c1
              < F' := by
            simp only [callMu]
            omega
          have hflat1 : ∀ t ∈ types ++ [t1], flatOK t = true := by
            intro t ht
            rcases List.mem_append.mp ht with ht | ht
            · exact hflat t ht
            · rw [List.mem_singleton.mp ht]
              exact hfl1
          obtain ⟨t, c2, hrun2, hfl, hg2⟩ := ih F' (Nat.lt_succ_self F')
            (.anyof rest baseName (i + 1) (types ++ [t1])) c1
            ⟨hwr, by simp; omega, hflat1⟩ trivial hg1 hmu2
          have harm : ArmYields defs F' alt baseName i cache t1 c1 :=
            .inr (.inl ⟨h1f, h2, hrun1⟩)
          refine ⟨t, c2, ?_, hfl, hg2⟩
          rw [anyofStep defs F' alt rest baseName i types cache t1 c1 harm]
          exact hrun2
        · have h2f : (alt.type == some (.st "object")) = false := by
            simpa using h2
          by_cases h3 : alt.ref.isSome = true
          · obtain ⟨rf, hrf⟩ := Option.isSome_iff_exists.mp h3
            obtain ⟨hbf, hsw2, hsome2⟩ := (wfS_parts defs alt hwa).1 rf hrf
            have hgd : alt.ref.getD "" = rf := by
              rw [hrf]
              rfl
            have hmu1 : callMu defs (.ref (alt.ref.getD "")) cache < F' := by
              simp only [callMu]
              omega
            obtain ⟨t1, c1, hrun1, hfl1, hg1⟩ := ih F' (Nat.lt_succ_self F')
              (.ref (alt.ref.getD "")) cache (by rw [hgd]; exact ⟨hbf, hsw2, hsome2⟩)
              trivial hgood hmu1
            have hkm := (runPres defs F' (.ref (alt.ref.getD "")) cache t1 c1
              (by trivial) hrun1).1
            have hum := uncached_mono defs cache c1 hkm
            have hmul := Nat.mul_le_mul_right (BB defs) hum
            have hmu2 : callMu defs (.anyof rest baseName (i + 1) (types ++ [t1])) c1
                < F' := by
              simp only [callMu]
              omega
            have hflat1 : ∀ t ∈ types ++ [t1], flatOK t = true := by
              intro t ht
              rcases List.mem_append.mp ht with ht | ht
              · exact hflat t ht
              · rw [List.mem_singleton.mp ht]
                exact hfl1
            obtain ⟨t, c2, hrun2, hfl, hg2⟩ := ih F' (Nat.lt_succ_self F')
              (.anyof rest baseName (i + 1) (types ++ [t1])) c1
              ⟨hwr, by simp; omega, hflat1⟩ trivial hg1 hmu2
            have harm : ArmYields defs F' alt baseName i cache t1 c1 :=
              .inr (.inr (.inl ⟨h1f, h2f, h3, hrun1⟩))
            refine ⟨t, c2, ?_, hfl, hg2⟩
            rw [anyofStep defs F' alt rest baseName i types cache t1 c1 harm]
            exact hrun2
          · have h3f : alt.ref.isSome = false := by
              simpa using h3
            have hmu1 : callMu defs (.node alt (baseName ++ "_" ++ toString i))
                cache < F' := by
              simp only [callMu]
              omega
            obtain ⟨t1, c1, hrun1, hfl1, hg1⟩ := ih F' (Nat.lt_succ_self F')
              (.node alt (baseName ++ "_" ++ toString i)) cache hwa trivial
              hgood hmu1
            have hkm := (runPres defs F' (.node alt (baseName ++ "_" ++ toString i))
              cache t1 c1 (by trivial) hrun1).1
            have hum := uncached_mono defs cache c1 hkm
            have hmul := Nat.mul_le_mul_right (BB defs) hum
            have hmu2 : callMu defs (.anyof rest baseName (i + 1) (types ++ [t1])) c1
                < F' := by
              simp only [callMu]
              omega
            have hflat1 : ∀ t ∈ types ++ [t1], flatOK t = true := by
              intro t ht
              rcases List.mem_append.mp ht with ht | ht
              · exact hflat t ht
              · rw [List.mem_singleton.mp ht]
                exact hfl1
            obtain ⟨t, c2, hrun2, hfl, hg2⟩ := ih F' (Nat.lt_succ_self F')
              (.anyof rest baseName (i + 1) (types ++ [t1])) c1
              ⟨hwr, by simp; omega, hflat1⟩ trivial hg1 hmu2
            have harm : ArmYields defs F' alt baseName i cache t1 c1 :=
              .inr (.inr (.inr ⟨h1f, h2f, h3f, hrun1⟩))
            refine ⟨t, c2, ?_, hfl, hg2⟩
            rw [anyofStep defs F' alt rest baseName i types cache t1 c1 harm]
            exact hrun2
  | props ps typeName req fields =>
    simp only [callTermWF] at hwf
    simp only [callPre] at hpre
    simp only [callMu] at hmu
    cases ps with
    | nil =>
      exact ⟨.model typeName fields, cacheSet cache typeName
        (some (.model typeName fields)), by simp [run], rfl,
        cacheGood_set_some cache typeName _ hgood rfl⟩
    | cons p rest =>
      obtain ⟨fn, fi⟩ := p
      obtain ⟨hwfi, hwrest⟩ := wfP_parts defs fn fi rest hwf
      have hszfi := sizeS_pos fi
      have hszrest := sizeP_pos rest
      simp only [sizeP] at hmu
      have hmu1 : callMu defs (.node fi (typeName ++ "_" ++ fn)) cache < F' := by
        simp only [callMu]
        omega
      obtain ⟨t1, c1, hrun1, hfl1, hg1⟩ := ih F' (Nat.lt_succ_self F')
        (.node fi (typeName ++ "_" ++ fn)) cache hwfi trivial hgood hmu1
      have hprs := runPres defs F' (.node fi (typeName ++ "_" ++ fn)) cache t1 c1
        (by trivial) hrun1
      have hpend1 : cacheGet c1 typeName = some none := by
        rcases hprs.2.2.2.1 typeName hpre with hm | hm
        · exact hm
        · exact absurd hm.1 (by simp [callIsProps])
      have hum := uncached_mono defs cache c1 hprs.1
      have hmul := Nat.mul_le_mul_right (BB defs) hum
      have hmu2 : callMu defs
          (.props rest typeName req (fields ++ [buildField typeName req fn fi t1])) c1
          < F' := by
        simp only [callMu]
        omega
      obtain ⟨t, c2, hrun2, hfl, hg2⟩ := ih F' (Nat.lt_succ_self F')
        (.props rest typeName req (fields ++ [buildField typeName req fn fi t1])) c1
        hwrest hpend1 hg1 hmu2
      have e1 : run defs (F' + 1) (.props ((fn, fi) :: rest) typeName req fields) cache
          = run defs F'
            (.props rest typeName req (fields ++ [buildField typeName req fn fi t1]))
            c1 := by
        simp [run, hrun1]
      refine ⟨t, c2, ?_, hfl, hg2⟩
      rw [e1]
      exact hrun2

/-! Forward-reference resolution: every forward-reference target produced
by the compiler is a key of the compilation cache, so the `model_rebuild`
finalize pass of `create_pydantic_model_from_json_schema` can resolve it. -/

theorem fwdTargetsL_append (a b : List PyType) :
    fwdTargetsL (a ++ b) = fwdTargetsL a ++ fwdTargetsL b := by
  induction a with
  | nil => simp [fwdTargetsL]
  | cons t ts ih => simp [fwdTargetsL, ih]

theorem fwdTargetsF_append (a b : List (String × PyType × FieldMeta)) :
    fwdTargetsF (a ++ b) = fwdTargetsF a ++ fwdTargetsF b := by
  induction a with
  | nil => simp [fwdTargetsF]
  | cons e es ih =>
    obtain ⟨fn, t, meta⟩ := e
    simp [fwdTargetsF, ih]

theorem fwdTargetsF_single (e : String × PyType × FieldMeta) :
    fwdTargetsF [e] = fwdTargets e.2.1 := by
  obtain ⟨a, b, c⟩ := e
  simp [fwdTargetsF]

theorem mem_fwdTargetsL (m : String) (ts : List PyType) :
    m ∈ fwdTargetsL ts ↔ ∃ t ∈ ts, m ∈ fwdTargets t := by
  induction ts with
  | nil => simp [fwdTargetsL]
  | cons t rest ih =>
    simp only [fwdTargetsL, List.mem_append, ih, List.mem_cons]
    constructor
    · rintro (h1 | ⟨x, hx, hm⟩)
      · exact ⟨t, .inl rfl, h1⟩
      · exact ⟨x, .inr hx, hm⟩
    · rintro ⟨x, hx | hx, hm⟩
      · subst hx
        exact .inl hm
      · exact .inr ⟨x, hx, hm⟩

theorem fwdTargets_toUnionArg (t : PyType) :
    fwdTargets (toUnionArg t) = fwdTargets t := by
  cases t <;> rfl

theorem fwdTargetsL_map_toUnionArg (ts : List PyType) :
    fwdTargetsL (ts.map toUnionArg) = fwdTargetsL ts := by
  induction ts with
  | nil => rfl
  | cons t rest ih => simp [fwdTargetsL, fwdTargets_toUnionArg, ih]

theorem fwdTargetsL_flattenUnions (ts : List PyType) :
    fwdTargetsL (flattenUnions ts) = fwdTargetsL ts := by
  induction ts with
  | nil => rfl
  | cons t rest ih =>
    cases t <;> simp [flattenUnions, fwdTargetsL, fwdTargetsL_append, ih, fwdTargets]

theorem unionSubscript_targets (ts : List PyType) (u : PyType)
    (h : unionSubscript ts = .ok u) :
    ∀ m ∈ fwdTargets u, m ∈ fwdTargetsL ts := by
  intro m hm
  have hkey : ∀ x, x ∈ dedupPT (flattenUnions (ts.map toUnionArg)) →
      ∀ m2 ∈ fwdTargets x, m2 ∈ fwdTargetsL ts := by
    intro x hx m2 hm2
    have hx2 := mem_dedupPT_sub _ _ hx
    have hmem : m2 ∈ fwdTargetsL (flattenUnions (ts.map toUnionArg)) :=
      (mem_fwdTargetsL m2 _).mpr ⟨x, hx2, hm2⟩
    rwa [fwdTargetsL_flattenUnions, fwdTargetsL_map_toUnionArg] at hmem
  rcases hd : dedupPT (flattenUnions (ts.map toUnionArg)) with _ | ⟨t, rest⟩
  · unfold unionSubscript at h
    rw [hd] at h
    cases h
  · rcases rest with _ | ⟨t2, rest2⟩
    · unfold unionSubscript at h
      rw [hd] at h
      injection h with h2
      subst h2
      exact hkey t (by rw [hd]; exact .head _) m hm
    · unfold unionSubscript at h
      rw [hd] at h
      injection h with h2
      subst h2
      have hm3 : m ∈ fwdTargetsL (t :: t2 :: rest2) := hm
      obtain ⟨x, hx, hm2⟩ := (mem_fwdTargetsL m _).mp hm3
      exact hkey x (by rw [hd]; exact hx) m hm2

theorem typeListKind_targets (k : String) (t : PyType) (h : typeListKind k = some t) :
    fwdTargets t = [] := by
  unfold typeListKind at h
  split at h <;> cases h <;> rfl

theorem fwdTargets_quoteSelfRef (t0 : PyType) (n m : String)
    (h : m ∈ fwdTargets (quoteSelfRef t0 n)) : m ∈ fwdTargets t0 ∨ m = n := by
  cases t0 <;> try exact .inl h
  case pyStr f =>
    simp only [quoteSelfRef] at h
    split at h
    · right
      simpa [fwdTargets, Fwd.target] using h
    · exact .inl h

theorem fwdTargets_pyOptional (t : PyType) (m : String)
    (h : m ∈ fwdTargets (pyOptional t)) : m ∈ fwdTargets t := by
  unfold pyOptional at h
  rcases hu : unionSubscript [t, .noneType] with e | u
  · rw [hu] at h
    simp [fwdTargets] at h
  · rw [hu] at h
    have hmem := unionSubscript_targets _ _ hu m h
    simpa [fwdTargetsL, fwdTargets] using hmem

theorem fwdTargets_buildField (typeName : String) (req : List String)
    (fn : String) (fi : Schema) (t0 : PyType) (m : String)
    (h : m ∈ fwdTargets (buildField typeName req fn fi t0).2.1) :
    m ∈ fwdTargets t0 ∨ m = typeName := by
  by_cases hreq : req.contains fn = true
  · simp only [buildField, hreq, if_true] at h
    exact fwdTargets_quoteSelfRef t0 typeName m h
  · simp only [Bool.not_eq_true] at hreq
    simp only [buildField, hreq, Bool.false_eq_true, if_false] at h
    exact fwdTargets_quoteSelfRef t0 typeName m (fwdTargets_pyOptional _ m h)

/-- Every forward-reference target inside `t` is a key of the cache `c`. -/
def TgtOK (c : Cache) (t : PyType) : Prop :=
  ∀ m ∈ fwdTargets t, (cacheGet c m).isSome = true

/-- Every concrete cache entry only contains forward references to keys
of the cache itself. -/
def CacheTgt (c : Cache) : Prop :=
  ∀ k u, cacheGet c k = some (some u) → TgtOK c u

/-- The forward-reference targets accumulated so far by a loop call are
keys of the cache. -/
def callTgtPre : Call → Cache → Prop
  | .anyof _ _ _ types, c => ∀ m ∈ fwdTargetsL types, (cacheGet c m).isSome = true
  | .props _ _ _ fields, c => ∀ m ∈ fwdTargetsF fields, (cacheGet c m).isSome = true
  | _, _ => True

/-- The wellformedness a call needs for forward-reference closure. -/
def callWF (defs : Defs) : Call → Prop
  | .node s _ => wfS defs s = true
  | .ref _ => True
  | .anyof alts _ _ _ => wfL defs alts = true
  | .props ps _ _ _ => wfP defs ps = true

theorem tgtOK_mono {c c2 : Cache} (hk : KeysMono c c2) {t : PyType} (h : TgtOK c t) :
    TgtOK c2 t := fun m hm => hk m (h m hm)

theorem tgtOK_nil {c : Cache} {t : PyType} (h : fwdTargets t = []) : TgtOK c t := by
  intro m hm
  rw [h] at hm
  cases hm

theorem cacheTgt_set_none (c : Cache) (k : String) (h : CacheTgt c) :
    CacheTgt (cacheSet c k none) := by
  intro k2 u h2
  by_cases he : k = k2
  · subst he
    rw [cacheGet_set_self] at h2
    cases h2
  · rw [cacheGet_set_ne c k k2 none he] at h2
    exact tgtOK_mono (keysMono_set c k none) (h k2 u h2)

theorem cacheTgt_set_some (c : Cache) (k : String) (u0 : PyType)
    (h : CacheTgt c) (hu : TgtOK c u0) : CacheTgt (cacheSet c k (some u0)) := by
  intro k2 u h2
  by_cases he : k = k2
  · subst he
    rw [cacheGet_set_self] at h2
    have h4 : u0 = u := by
      injection h2 with h3
      injection h3
    subst h4
    exact tgtOK_mono (keysMono_set c k (some u0)) hu
  · rw [cacheGet_set_ne c k k2 _ he] at h2
    exact tgtOK_mono (keysMono_set c k (some u0)) (h k2 u h2)

/-- Forward-reference closure of one compiler call: on wellformed input,
every target in the result and in every concrete cache entry is a key of
the final cache. -/
theorem runTargets (defs : Defs) (hdefs : wfDefs defs = true) :
    ∀ (fuel : Nat) (call : Call) (cache : Cache) (t : PyType) (c2 : Cache),
      callWF defs call → callPre call cache → callTgtPre call cache →
      CacheTgt cache →
      run defs fuel call cache = .ok (t, c2) →
      TgtOK c2 t ∧ CacheTgt c2 := by
  intro fuel
  induction fuel with
  | zero =>
    intro call cache t c2 _ _ _ _ h
    simp [run] at h
  | succ f ih =>
    intro call cache t c2 hwf hpre htp hct h
    cases call with
    | node s typeName =>
      obtain ⟨href, hanyof, htl, hwfP, hwfO⟩ := wfS_parts defs s hwf
      rcases hr : s.ref with _ | rf
      · rcases ha : s.anyOf with _ | alts
        · rcases he : s.enum with _ | vs
          · rcases ht : s.type with _ | st
            · simp only [run, hr, ha, he, ht, Except.ok.injEq, Prod.mk.injEq] at h
              obtain ⟨rfl, rfl⟩ := h
              exact ⟨tgtOK_nil rfl, hct⟩
            · cases st with
              | tl kinds =>
                simp only [run, hr, ha, he, ht] at h
                have hknil : ∀ x ∈ kinds.filterMap typeListKind, fwdTargets x = [] := by
                  intro x hx
                  obtain ⟨k, _, hk⟩ := List.mem_filterMap.mp hx
                  exact typeListKind_targets k x hk
                by_cases hlen : (kinds.filterMap typeListKind).length > 1
                · rw [if_pos hlen] at h
                  rcases hu : unionSubscript (kinds.filterMap typeListKind) with e | u
                  · rw [hu] at h
                    cases h
                  · rw [hu] at h
                    simp only [Except.ok.injEq, Prod.mk.injEq] at h
                    obtain ⟨rfl, rfl⟩ := h
                    refine ⟨?_, hct⟩
                    intro m hm
                    have hm2 := unionSubscript_targets _ _ hu m hm
                    obtain ⟨x, hx, hm3⟩ := (mem_fwdTargetsL m _).mp hm2
                    rw [hknil x hx] at hm3
                    cases hm3
                · rw [if_neg hlen] at h
                  rcases hfm : kinds.filterMap typeListKind with _ | ⟨t0, rest0⟩
                  · rw [hfm] at h
                    cases h
                  · rw [hfm] at h
                    simp only [Except.ok.injEq, Prod.mk.injEq] at h
                    obtain ⟨rfl, rfl⟩ := h
                    refine ⟨tgtOK_nil ?_, hct⟩
                    exact hknil t0 (by rw [hfm]; exact .head _)
              | st kind =>
                by_cases hobj : kind = "object"
                · subst hobj
                  rcases hc : cacheGet cache typeName with _ | entry
                  · simp only [run, hr, ha, he, ht, hc] at h
                    exact ih (.props s.properties typeName s.required [])
                      (cacheSet cache typeName none) t c2 hwfP
                      (by simp [callPre, cacheGet_set_self])
                      (by intro m hm; cases hm)
                      (cacheTgt_set_none cache typeName hct) h
                  · rcases entry with _ | t0
                    · simp only [run, hr, ha, he, ht, hc, Except.ok.injEq,
                        Prod.mk.injEq] at h
                      obtain ⟨rfl, rfl⟩ := h
                      exact ⟨tgtOK_nil rfl, hct⟩
                    · simp only [run, hr, ha, he, ht, hc, Except.ok.injEq,
                        Prod.mk.injEq] at h
                      obtain ⟨rfl, rfl⟩ := h
                      exact ⟨hct typeName t0 hc, hct⟩
                · by_cases harr : kind = "array"
                  · subst harr
                    simp only [run, hr, ha, he, ht] at h
                    rcases hrun1 : run defs f
                        (.node (s.items.getD Schema.empty) (typeName ++ "Item"))
                        cache with e | ⟨t1, c1⟩
                    · rw [hrun1] at h
                      cases h
                    · rw [hrun1] at h
                      have hwfi : wfS defs (s.items.getD Schema.empty) = true := by
                        rcases hit : s.items with _ | i
                        · rfl
                        · rw [hit] at hwfO
                          simpa [wfO, Option.getD] using hwfO
                      obtain ⟨h1, hcc⟩ := ih
                        (.node (s.items.getD Schema.empty) (typeName ++ "Item"))
                        cache t1 c1 hwfi trivial trivial hct hrun1
                      cases t1 <;>
                        · simp only [Except.ok.injEq, Prod.mk.injEq] at h
                          obtain ⟨rfl, rfl⟩ := h
                          exact ⟨fun m hm => h1 m hm, hcc⟩
                  · by_cases h3 : kind = "string"
                    · subst h3
                      simp only [run, hr, ha, he, ht, Except.ok.injEq,
                        Prod.mk.injEq] at h
                      obtain ⟨rfl, rfl⟩ := h
                      exact ⟨tgtOK_nil (by split <;> rfl), hct⟩
                    · by_cases h4 : kind = "integer"
                      · subst h4
                        simp only [run, hr, ha, he, ht, Except.ok.injEq,
                          Prod.mk.injEq] at h
                        obtain ⟨rfl, rfl⟩ := h
                        exact ⟨tgtOK_nil (by split <;> rfl), hct⟩
                      · by_cases h5 : kind = "number"
                        · subst h5
                          simp only [run, hr, ha, he, ht, Except.ok.injEq,
                            Prod.mk.injEq] at h
                          obtain ⟨rfl, rfl⟩ := h
                          exact ⟨tgtOK_nil (by split <;> rfl), hct⟩
                        · by_cases h6 : kind = "boolean"
                          · subst h6
                            simp only [run, hr, ha, he, ht, Except.ok.injEq,
                              Prod.mk.injEq] at h
                            obtain ⟨rfl, rfl⟩ := h
                            exact ⟨tgtOK_nil rfl, hct⟩
                          · by_cases h7 : kind = "null"
                            · subst h7
                              simp only [run, hr, ha, he, ht, Except.ok.injEq,
                                Prod.mk.injEq] at h
                              obtain ⟨rfl, rfl⟩ := h
                              exact ⟨tgtOK_nil rfl, hct⟩
                            · simp only [run, hr, ha, he, ht, hobj, harr, h3, h4,
                                h5, h6, h7, Except.ok.injEq, Prod.mk.injEq] at h
                              obtain ⟨rfl, rfl⟩ := h
                              exact ⟨tgtOK_nil rfl, hct⟩
          · simp only [run, hr, ha, he, Except.ok.injEq, Prod.mk.injEq] at h
            obtain ⟨rfl, rfl⟩ := h
            exact ⟨tgtOK_nil rfl, hct⟩
        · obtain ⟨hempty, hwl⟩ := hanyof alts ha
          simp only [run, hr, ha] at h
          exact ih (.anyof alts typeName 0 []) cache t c2 hwl trivial
            (by intro m hm; cases hm) hct h
      · obtain ⟨hbf, hsw, hsome⟩ := href rf hr
        simp only [run, hr, hbf, Bool.false_eq_true, if_false] at h
        exact ih (.ref rf) cache t c2 trivial trivial trivial hct h
    | ref r =>
      by_cases hbf : (r == "#") = true
      · simp only [run, hbf, if_true] at h
        cases h
      · simp only [Bool.not_eq_true] at hbf
        by_cases hsw : strStartsWith r "#/$defs/" = true
        · rcases hc : cacheGet cache (refDefName r) with _ | entry
          · rcases hdg : defsGet defs (refDefName r) with _ | body
            · have e1 : run defs (f + 1) (.ref r) cache
                  = .error (.defNotFound (refDefName r)) := by
                simp [run, hbf, hsw, hc, hdg]
              rw [e1] at h
              cases h
            · have e1 : run defs (f + 1) (.ref r) cache
                  = run defs f (.node body (refDefName r)) cache := by
                simp [run, hbf, hsw, hc, hdg]
              rw [e1] at h
              have hwfb := (wfDefs_get defs hdefs _ body hdg).2
              exact ih (.node body (refDefName r)) cache t c2 hwfb trivial trivial hct h
          · rcases entry with _ | t0
            · have e1 : run defs (f + 1) (.ref r) cache
                  = .ok (.pyStr (.name (refDefName r)), cache) := by
                simp [run, hbf, hsw, hc]
              rw [e1] at h
              simp only [Except.ok.injEq, Prod.mk.injEq] at h
              obtain ⟨rfl, rfl⟩ := h
              refine ⟨?_, hct⟩
              intro m hm
              have hm2 : m = refDefName r := by
                simpa [fwdTargets, Fwd.target] using hm
              subst hm2
              simp [hc]
            · have e1 : run defs (f + 1) (.ref r) cache = .ok (t0, cache) := by
                simp [run, hbf, hsw, hc]
              rw [e1] at h
              simp only [Except.ok.injEq, Prod.mk.injEq] at h
              obtain ⟨rfl, rfl⟩ := h
              exact ⟨hct _ _ hc, hct⟩
        · simp only [Bool.not_eq_true] at hsw
          have e1 : run defs (f + 1) (.ref r) cache = .error (.unsupportedRef r) := by
            simp [run, hbf, hsw]
          rw [e1] at h
          cases h
    | anyof alts baseName i types =>
      cases alts with
      | nil =>
        cases types with
        | nil =>
          have e1 : run defs (f + 1) (.anyof [] baseName i []) cache
              = .error .emptyUnion := by
            simp [run, unionSubscript, flattenUnions, dedupPT, dedupPTGo]
          rw [e1] at h
          cases h
        | cons t0 rest =>
          cases rest with
          | nil =>
            have e1 : run defs (f + 1) (.anyof [] baseName i [t0]) cache
                = .ok (t0, cache) := rfl
            rw [e1] at h
            simp only [Except.ok.injEq, Prod.mk.injEq] at h
            obtain ⟨rfl, rfl⟩ := h
            refine ⟨?_, hct⟩
            intro m hm
            exact htp m (by simpa [fwdTargetsL] using hm)
          | cons t1 rest2 =>
            rcases hu : unionSubscript (t0 :: t1 :: rest2) with e | u
            · have e1 : run defs (f + 1) (.anyof [] baseName i (t0 :: t1 :: rest2)) cache
                  = .error e := by
                simp [run, hu]
              rw [e1] at h
              cases h
            · have e1 : run defs (f + 1) (.anyof [] baseName i (t0 :: t1 :: rest2)) cache
                  = .ok (u, cache) := by
                simp [run, hu]
              rw [e1] at h
              simp only [Except.ok.injEq, Prod.mk.injEq] at h
              obtain ⟨rfl, rfl⟩ := h
              refine ⟨?_, hct⟩
              intro m hm
              exact htp m (unionSubscript_targets _ _ hu m hm)
      | cons alt rest =>
        obtain ⟨hwa, hwr⟩ := wfL_parts defs alt rest hwf
        by_cases hnull : (alt.type == some (.st "null")) = true
        · have e1 : run defs (f + 1) (.anyof (alt :: rest) baseName i types) cache
              = run defs f (.anyof rest baseName (i + 1) (types ++ [.noneType])) cache := by
            simp [run, hnull]
          rw [e1] at h
          refine ih (.anyof rest baseName (i + 1) (types ++ [.noneType]))
            cache t c2 hwr trivial ?_ hct h
          intro m hm
          rw [fwdTargetsL_append] at hm
          rcases List.mem_append.mp hm with hm1 | hm2
          · exact htp m hm1
          · simp [fwdTargetsL, fwdTargets] at hm2
        · simp only [Bool.not_eq_true] at hnull
          by_cases hobj2 : (alt.type == some (.st "object")) = true
          · rcases hrun1 : run defs f
                (.node alt (baseName ++ "Option" ++ toString i)) cache with e | ⟨t1, c1⟩
            · have e1 : run defs (f + 1) (.anyof (alt :: rest) baseName i types) cache
                  = .error e := by
                simp [run, hnull, hobj2, hrun1]
              rw [e1] at h
              cases h
            · have e1 : run defs (f + 1) (.anyof (alt :: rest) baseName i types) cache
                  = run defs f (.anyof rest baseName (i + 1) (types ++ [t1])) c1 := by
                simp [run, hnull, hobj2, hrun1]
              rw [e1] at h
              obtain ⟨ht1, hcc1⟩ := ih (.node alt (baseName ++ "Option" ++ toString i))
                cache t1 c1 hwa trivial trivial hct hrun1
              have hkm := (runPres defs f (.node alt (baseName ++ "Option" ++ toString i))
                cache t1 c1 trivial hrun1).1
              refine ih (.anyof rest baseName (i + 1) (types ++ [t1]))
                c1 t c2 hwr trivial ?_ hcc1 h
              intro m hm
              rw [fwdTargetsL_append] at hm
              rcases List.mem_append.mp hm with hm1 | hm2
              · exact hkm m (htp m hm1)
              · exact ht1 m (by simpa [fwdTargetsL] using hm2)
          · simp only [Bool.not_eq_true] at hobj2
            by_cases hrefs : alt.ref.isSome = true
            · rcases hrun1 : run defs f (.ref (alt.ref.getD "")) cache with e | ⟨t1, c1⟩
              · have e1 : run defs (f + 1) (.anyof (alt :: rest) baseName i types) cache
                    = .error e := by
                  simp [run, hnull, hobj2, hrefs, hrun1]
                rw [e1] at h
                cases h
              · have e1 : run defs (f + 1) (.anyof (alt :: rest) baseName i types) cache
                    = run defs f (.anyof rest baseName (i + 1) (types ++ [t1])) c1 := by
                  simp [run, hnull, hobj2, hrefs, hrun1]
                rw [e1] at h
                obtain ⟨ht1, hcc1⟩ := ih (.ref (alt.ref.getD ""))
                  cache t1 c1 trivial trivial trivial hct hrun1
                have hkm := (runPres defs f (.ref (alt.ref.getD ""))
                  cache t1 c1 trivial hrun1).1
                refine ih (.anyof rest baseName (i + 1) (types ++ [t1]))
                  c1 t c2 hwr trivial ?_ hcc1 h
                intro m hm
                rw [fwdTargetsL_append] at hm
                rcases List.mem_append.mp hm with hm1 | hm2
                · exact hkm m (htp m hm1)
                · exact ht1 m (by simpa [fwdTargetsL] using hm2)
            · simp only [Bool.not_eq_true] at hrefs
              rcases hrun1 : run defs f
                  (.node alt (baseName ++ "_" ++ toString i)) cache with e | ⟨t1, c1⟩
              · have e1 : run defs (f + 1) (.anyof (alt :: rest) baseName i types) cache
                    = .error e := by
                  simp [run, hnull, hobj2, hrefs, hrun1]
                rw [e1] at h
                cases h
              · have e1 : run defs (f + 1) (.anyof (alt :: rest) baseName i types) cache
                    = run defs f (.anyof rest baseName (i + 1) (types ++ [t1])) c1 := by
                  simp [run, hnull, hobj2, hrefs, hrun1]
                rw [e1] at h
                obtain ⟨ht1, hcc1⟩ := ih (.node alt (baseName ++ "_" ++ toString i))
                  cache t1 c1 hwa trivial trivial hct hrun1
                have hkm := (runPres defs f (.node alt (baseName ++ "_" ++ toString i))
                  cache t1 c1 trivial hrun1).1
                refine ih (.anyof rest baseName (i + 1) (types ++ [t1]))
                  c1 t c2 hwr trivial ?_ hcc1 h
                intro m hm
                rw [fwdTargetsL_append] at hm
                rcases List.mem_append.mp hm with hm1 | hm2
                · exact hkm m (htp m hm1)
                · exact ht1 m (by simpa [fwdTargetsL] using hm2)
    | props ps typeName req fields =>
      cases ps with
      | nil =>
        have e1 : run defs (f + 1) (.props [] typeName req fields) cache
            = .ok (.model typeName fields,
                cacheSet cache typeName (some (.model typeName fields))) := rfl
        rw [e1] at h
        simp only [Except.ok.injEq, Prod.mk.injEq] at h
        obtain ⟨rfl, rfl⟩ := h
        have hm1 : TgtOK cache (.model typeName fields) := fun m hm => htp m hm
        exact ⟨tgtOK_mono (keysMono_set cache typeName _) hm1,
          cacheTgt_set_some cache typeName _ hct hm1⟩
      | cons p rest =>
        obtain ⟨fieldName, fieldInfo⟩ := p
        obtain ⟨hwfFi, hwfRest⟩ := wfP_parts defs fieldName fieldInfo rest hwf
        rcases hrun1 : run defs f
            (.node fieldInfo (typeName ++ "_" ++ fieldName)) cache with e | ⟨t0, cache1⟩
        · have e1 : run defs (f + 1)
              (.props ((fieldName, fieldInfo) :: rest) typeName req fields) cache
              = .error e := by
            simp [run, hrun1]
          rw [e1] at h
          cases h
        · have e1 : run defs (f + 1)
              (.props ((fieldName, fieldInfo) :: rest) typeName req fields) cache
              = run defs f (.props rest typeName req
                  (fields ++ [buildField typeName req fieldName fieldInfo t0])) cache1 := by
            simp [run, hrun1]
          rw [e1] at h
          obtain ⟨ht0, hcc1⟩ := ih (.node fieldInfo (typeName ++ "_" ++ fieldName))
            cache t0 cache1 hwfFi trivial trivial hct hrun1
          have hprs := runPres defs f (.node fieldInfo (typeName ++ "_" ++ fieldName))
            cache t0 cache1 trivial hrun1
          have hpend2 : cacheGet cache1 typeName = some none := by
            rcases hprs.2.2.2.1 typeName hpre with h1 | ⟨h2, _⟩
            · exact h1
            · cases h2
          refine ih (.props rest typeName req
              (fields ++ [buildField typeName req fieldName fieldInfo t0]))
            cache1 t c2 hwfRest hpend2 ?_ hcc1 h
          intro m hm
          rw [fwdTargetsF_append, fwdTargetsF_single] at hm
          rcases List.mem_append.mp hm with hm1 | hm2
          · exact hprs.1 m (htp m hm1)
          · rcases fwdTargets_buildField _ _ _ _ _ _ hm2 with hm3 | rfl
            · exact ht0 m hm3
            · simp [hpend2]


/-- Example mutually recursive definitions table: `A` references `B` and
itself, `B` references `A` back. -/
def c1DefA : Schema :=
  objSchema [("b", refSchema "#/$defs/B"), ("selfA", refSchema "#/$defs/A")] ["b"]

def c1DefB : Schema := objSchema [("a", refSchema "#/$defs/A")] ["a"]

def c1Defs : Defs := [("A", c1DefA), ("B", c1DefB)]

def c1Doc : Schema := objSchema [("root", refSchema "#/$defs/A")] ["root"]

/-- C1: for a wellformed table of (mutually, arbitrarily deeply)
self-referential object definitions and a wellformed document node, some
finite fuel makes the compiler succeed (the recursion guard returns the
cached entry instead of recursing), the final cache holds no `None`
placeholder, and every forward reference — in the result and nested
anywhere inside cached record fields, array element types and union
variants — names a concretely compiled model of the final cache, so the
`model_rebuild` finalize pass resolves all of them and leaves zero
pending entries. -/
theorem c1_recursive_compile_resolves (defs : Defs) (doc : Schema) (name : String)
    (hdefs : wfDefs defs = true) (hdoc : wfS defs doc = true) :
    ∃ F t c2, run defs F (.node doc name) [] = .ok (t, c2) ∧
      (∀ k, cacheGet c2 k ≠ some none) ∧
      (∀ m ∈ fwdTargets t, ∃ u, cacheGet c2 m = some (some u)) ∧
      (∀ k u, cacheGet c2 k = some (some u) →
        ∀ m ∈ fwdTargets u, ∃ u2, cacheGet c2 m = some (some u2)) := by
  obtain ⟨t, c2, hrun, hfl, hg⟩ := runTerm defs hdefs
    (callMu defs (.node doc name) [] + 1) (.node doc name) [] hdoc trivial
    (by intro k u hk; exact Option.noConfusion hk) (Nat.lt_succ_self _)
  have hnp : ∀ k, cacheGet c2 k ≠ some none := by
    intro k hk
    have hpend := (runPres defs _ (.node doc name) [] t c2 trivial hrun).2.2.1 k hk
    exact Option.noConfusion hpend
  obtain ⟨htg, hctg⟩ := runTargets defs hdefs _ (.node doc name) [] t c2 hdoc
    trivial trivial (by intro k u hk; exact Option.noConfusion hk) hrun
  refine ⟨_, t, c2, hrun, hnp, ?_, ?_⟩
  · intro m hm
    have hs := htg m hm
    rcases hx : cacheGet c2 m with _ | e
    · rw [hx] at hs
      cases hs
    · rcases e with _ | u
      · exact absurd hx (hnp m)
      · exact ⟨u, rfl⟩
  · intro k u hk m hm
    have hs := hctg k u hk m hm
    rcases hx : cacheGet c2 m with _ | e
    · rw [hx] at hs
      cases hs
    · rcases e with _ | u2
      · exact absurd hx (hnp m)
      · exact ⟨u2, rfl⟩

theorem c1_recursive_compile_resolves_witness :
    wfDefs c1Defs = true ∧ wfS c1Defs c1Doc = true ∧
    (∃ F t c2, run c1Defs F (.node c1Doc "Root") [] = .ok (t, c2) ∧
      (∀ k, cacheGet c2 k ≠ some none) ∧
      (∀ m ∈ fwdTargets t, ∃ u, cacheGet c2 m = some (some u)) ∧
      (∀ k u, cacheGet c2 k = some (some u) →
        ∀ m ∈ fwdTargets u, ∃ u2, cacheGet c2 m = some (some u2))) :=
  ⟨by decide, by decide,
    c1_recursive_compile_resolves c1Defs c1Doc "Root" (by decide) (by decide)⟩

end StructuredOutput
